import Mathlib

/-!
Verification of the directory combo-box core (tree builder, tree queries,
selection/navigation engine) of the egui-directory-combobox crate, against its
natural-language specification.

The embedding is shallow:

* a filesystem path is its list of components (`Path := List String`);
  Rust `Path::starts_with` compares whole components, which is exactly
  `List.isPrefixOf` on the component lists;
* the filesystem itself is an explicit record `FS` of the primitives the crate
  calls (`dunce::canonicalize`, `is_dir`, `is_file`, `create_dir_all`,
  `read_dir`), so the effectful Rust functions become pure functions taking an
  `FS` argument;
* `DirectoryNode::try_from_path` recurses through the filesystem, which is not
  structurally decreasing, so the embedding adds an explicit recursion-depth
  `fuel : Nat`; every theorem below is either independent of the fuel or
  evaluated at a fuel larger than the tree at hand;
* the purely graphical fields of `DirectoryComboBox` (`id`, `max_width`,
  `max_height`, `wrap_mode`) and the egui rendering functions are out of scope:
  they are consumed only by the rendering adapter, which the specification
  itself declares external.  The selection cursor, the roots, the filter and
  the configuration flags that the engine reads are all modelled.
-/

namespace EguiDirCombo

/-- A canonical filesystem path, as its list of components. -/
abbrev Path := List String

/-- Rust `child.starts_with(parent)` on `std::path::Path` holds when the whole
component list of `parent` is an initial segment of the component list of
`child`; on the component lists this is `List.isPrefixOf`. -/
abbrev pathStartsWith (child parent : Path) : Bool := parent.isPrefixOf child

/-- The `DirectoryNode` enum of `src/lib.rs` (lines 6-10): a `File` holds a
canonical path, a `Directory` holds a canonical path and its children. -/
inductive DirectoryNode where
  | File : Path → DirectoryNode
  | Directory : Path → List DirectoryNode → DirectoryNode

/-- Accessor `DirectoryNode::path` (lines 42-47). -/
def DirectoryNode.path : DirectoryNode → Path
  | .File p => p
  | .Directory p _ => p

/-- Whether a node is a `Directory` variant. -/
def DirectoryNode.isDirNode : DirectoryNode → Bool
  | .File _ => false
  | .Directory _ _ => true

mutual

/-- Method `DirectoryNode::find_parent_directory` (lines 49-64): on a file, `None`;
on a directory whose path is a component-wise initial segment of `path`, the
first child whose recursive search succeeds, and otherwise the directory
itself; `None` when the directory path does not start `path`. -/
def DirectoryNode.find_parent_directory : DirectoryNode → Path → Option DirectoryNode
  | .File _, _ => none
  | .Directory dir_path children, p =>
    if pathStartsWith p dir_path then
      match findParentInChildren children p with
      | some found => some found
      | none => some (.Directory dir_path children)
    else none

/-- The `for child in children` loop inside `find_parent_directory`
(lines 54-58): return the first `Some` produced by a child, else `None`. -/
def findParentInChildren : List DirectoryNode → Path → Option DirectoryNode
  | [], _ => none
  | child :: rest, p =>
    match child.find_parent_directory p with
    | some found => some found
    | none => findParentInChildren rest p

end

mutual

/-- Method `DirectoryNode::find_node_of_path` (lines 66-87): a file matches when its
path equals `path`; a directory matches on its own path first, before its
children are searched depth-first. -/
def DirectoryNode.find_node_of_path : DirectoryNode → Path → Option DirectoryNode
  | .File p, q => if p = q then some (.File p) else none
  | .Directory dir_path children, q =>
    if dir_path = q then some (.Directory dir_path children)
    else findNodeInChildren children q

/-- The `for child in children` loop inside `find_node_of_path` (lines 79-83):
first `Some` produced by a child, else `None`.  Iterating it over the `roots`
sequence is also how a whole forest is searched in root order. -/
def findNodeInChildren : List DirectoryNode → Path → Option DirectoryNode
  | [], _ => none
  | child :: rest, q =>
    match child.find_node_of_path q with
    | some found => some found
    | none => findNodeInChildren rest q

end

/-- The filesystem primitives used by the crate, as one record.
`canon` is `dunce::canonicalize` (`none` on error; in particular it fails when
the path does not exist).  `entries p` is the list of entry paths that
`std::fs::read_dir(p)` yields, each of the shape `p ++ [name]` on a real
filesystem, and `[]` when `read_dir` fails (the code treats a failed listing
as an empty one).  `createDirAllOk p` tells whether `std::fs::create_dir_all(p)`
returns `Ok`. -/
structure FS where
  canon : Path → Option Path
  isDir : Path → Bool
  isFile : Path → Bool
  createDirAllOk : Path → Bool
  entries : Path → List Path

/-- Facts about the real `std::fs` that the analysis relies on, stated as a
predicate on the abstract filesystem.  `create_dir_all` on a path that exists
as a regular file fails: `mkdir` returns `EEXIST` (kind `AlreadyExists`, not
`NotFound`), and `create_dir_all` then returns that error because the path is
not a directory — on both the Unix and the Windows implementation of the Rust
standard library.  A canonical path names an existing filesystem object, which
is never both a regular file and a directory. -/
structure FS.Real (fs : FS) : Prop where
  create_dir_all_fails_on_file : ∀ p, fs.isFile p = true → fs.createDirAllOk p = false
  not_file_and_dir : ∀ p, ¬(fs.isFile p = true ∧ fs.isDir p = true)

mutual

/-- Builder `DirectoryNode::try_from_path` (lines 13-32), with explicit recursion
fuel.  Mirrors the source order: canonicalize (`?` on failure), then
`create_dir_all` (`?` on failure), then the `is_dir` / `is_file` tests.  For a
directory, the children are built by `buildChildren` from the `read_dir`
entry list. -/
def tryFromPath (fs : FS) : Nat → Path → Option DirectoryNode
  | 0, _ => none
  | fuel + 1, path0 =>
    match fs.canon path0 with
    | none => none
    | some path =>
      if fs.createDirAllOk path then
        if fs.isDir path then
          match buildChildren fs fuel path (fs.entries path) with
          | some children => some (.Directory path children)
          | none => none
        else if fs.isFile path then some (.File path)
        else none
      else none
  termination_by fuel _ => (fuel, 0)

/-- The `for entry in entries.flatten()` loop of `try_from_path`
(lines 18-25): an entry whose (raw, pre-canonicalization) path starts with the
parent path is recursed into, and the `?` makes one failing child abort the
whole build; an entry that does not start with the parent path is skipped. -/
def buildChildren (fs : FS) : Nat → Path → List Path → Option (List DirectoryNode)
  | _, _, [] => some []
  | fuel, parent, e :: es =>
    if pathStartsWith e parent then
      match tryFromPath fs fuel e with
      | some child =>
        match buildChildren fs fuel parent es with
        | some rest => some (child :: rest)
        | none => none
      | none => none
    else buildChildren fs fuel parent es
  termination_by fuel _ es => (fuel, es.length + 1)

end

/-- The engine-relevant state of `DirectoryComboBox` (lines 90-103), with the
defaults of its `Default` impl (lines 105-121).  The purely graphical fields
(`id`, `max_width`, `max_height`, `wrap_mode`) are omitted: no engine
operation reads them. -/
structure DirectoryComboBox where
  selected_path : Option Path := none
  selected_file : Option Path := none
  roots : List DirectoryNode := []
  show_extensions : Bool := true
  filter : Option (Path → Bool) := none
  select_files_only : Bool := false
  back_button : Bool := true

/-- Accessor `DirectoryComboBox::selected` (lines 197-199): always returns
`selected_file`. -/
def DirectoryComboBox.selected (cb : DirectoryComboBox) : Option Path :=
  cb.selected_file

/-- The `selected_path` accessor (lines 201-204). -/
def DirectoryComboBox.selected_path_acc (cb : DirectoryComboBox) : Option Path :=
  cb.selected_path

/-- Expression `filter.as_ref().map_or(true, |f| f(file_path))` (line 231 / 243 / 253). -/
def passes (filter : Option (Path → Bool)) (p : Path) : Bool :=
  match filter with
  | none => true
  | some f => f p

/-- The first loop of `navigate_nodes` (lines 226-237) over the oriented node
sequence: walk the nodes; a `File` equal to the selection sets the
`found_selected` flag; after the flag is set, the first other `File` accepted
by the filter is the navigation target.  Returns the target (if any) together
with the final value of the flag. -/
def scanNodes (filter : Option (Path → Bool)) (sel : Path) :
    Bool → List DirectoryNode → Option Path × Bool
  | found, [] => (none, found)
  | found, .File file_path :: rest =>
    if file_path = sel then scanNodes filter sel true rest
    else if found && passes filter file_path then (some file_path, found)
    else scanNodes filter sel found rest
  | found, .Directory _ _ :: rest => scanNodes filter sel found rest

/-- The wrap-around loop of `navigate_nodes` (lines 240-259) over the oriented
node sequence: it stops at the first `File` node; if that file passes the
filter the selection is updated to it, and in either case the loop returns.
`none`: no `File` at all; `some none`: first `File` rejected by the filter;
`some (some fp)`: selection becomes `fp`. -/
def wrapTarget (filter : Option (Path → Bool)) : List DirectoryNode → Option (Option Path)
  | [] => none
  | .File file_path :: _ => some (if passes filter file_path then some file_path else none)
  | .Directory _ _ :: rest => wrapTarget filter rest

/-- The body of `navigate_nodes` after the `children_iter` orientation has
been fixed (`iter` is `nodes` for forward, the reversed nodes otherwise; both
loops of the source iterate in this one orientation): run the scan loop, then,
when the selected file was seen but no target found, the wrap-around loop. -/
def navigateOriented (iter : List DirectoryNode)
    (filter : Option (Path → Bool)) (sel : Path)
    (selected_path selected_file : Option Path) : Option Path × Option Path :=
  match scanNodes filter sel false iter with
  | (some fp, _) => (some fp, some fp)
  | (none, found) =>
    if found then
      match wrapTarget filter iter with
      | some (some fp) => (some fp, some fp)
      | some none => (selected_path, selected_file)
      | none => (selected_path, selected_file)
    else (selected_path, selected_file)

/-- Method `DirectoryComboBox::navigate_nodes` (lines 212-263).  Returns the new
`(selected_path, selected_file)` pair.  `forward` selects the iteration
direction (`nodes.iter()` versus `nodes.iter().rev()`), used identically by
both loops. -/
def navigate_nodes (nodes : List DirectoryNode) (forward : Bool)
    (filter : Option (Path → Bool))
    (selected_path selected_file : Option Path) : Option Path × Option Path :=
  match selected_file with
  | none => (selected_path, selected_file)
  | some sel =>
    navigateOriented (if forward then nodes else nodes.reverse)
      filter sel selected_path selected_file

/-- The second loop of `navigate_folder` (lines 281-294): the first root whose
`find_parent_directory` yields a `Directory` provides the sibling list; a root
yielding `None` (or, vacuously, a non-directory) is passed over. -/
def rootsParentSearch : List DirectoryNode → Path → Option (Path × List DirectoryNode)
  | [], _ => none
  | root :: rest, sel =>
    match root.find_parent_directory sel with
    | some (.Directory p children) => some (p, children)
    | _ => rootsParentSearch rest sel

/-- The body of `navigate_folder` once the `if let Some(selected_file)` test
has succeeded with `sel`: if `sel` is one of the roots' paths the roots are
navigated, otherwise the children of the parent directory found across the
roots are navigated. -/
def DirectoryComboBox.navigate_folder_go (cb : DirectoryComboBox) (forward : Bool)
    (sel : Path) : DirectoryComboBox :=
  if cb.roots.any (fun root => root.path == sel) then
    let r := navigate_nodes cb.roots forward cb.filter cb.selected_path cb.selected_file
    { cb with selected_path := r.1, selected_file := r.2 }
  else
    match rootsParentSearch cb.roots sel with
    | some (_p, children) =>
      let r := navigate_nodes children forward cb.filter cb.selected_path cb.selected_file
      { cb with selected_path := r.1, selected_file := r.2 }
    | none => cb

/-- Method `DirectoryComboBox::navigate_folder` (lines 265-296): nothing happens
without a selected file. -/
def DirectoryComboBox.navigate_folder (cb : DirectoryComboBox) (forward : Bool) :
    DirectoryComboBox :=
  match cb.selected_file with
  | none => cb
  | some sel => cb.navigate_folder_go forward sel

/-- Method `DirectoryComboBox::select_next_file` (lines 299-301). -/
def DirectoryComboBox.select_next_file (cb : DirectoryComboBox) : DirectoryComboBox :=
  cb.navigate_folder true

/-- Method `DirectoryComboBox::select_previous_file` (lines 304-306). -/
def DirectoryComboBox.select_previous_file (cb : DirectoryComboBox) : DirectoryComboBox :=
  cb.navigate_folder false

/-- The tail of `set_selection` after canonicalization succeeded with `p`
(lines 320-330): in files-only mode only an existing file is accepted (both
cursor fields are set); otherwise a file sets both fields and a directory sets
only `selected_path`. -/
def DirectoryComboBox.set_selection_apply (cb : DirectoryComboBox) (fs : FS)
    (p : Path) : DirectoryComboBox :=
  if cb.select_files_only then
    if fs.isFile p then { cb with selected_path := some p, selected_file := some p }
    else cb
  else if fs.isFile p then { cb with selected_path := some p, selected_file := some p }
  else if fs.isDir p then { cb with selected_path := some p }
  else cb

/-- The `Some` arm of `set_selection` (lines 315-331): canonicalize, a failure
being a silent no-op. -/
def DirectoryComboBox.set_selection_some (cb : DirectoryComboBox) (fs : FS)
    (p0 : Path) : DirectoryComboBox :=
  match fs.canon p0 with
  | none => cb
  | some p => cb.set_selection_apply fs p

/-- Method `DirectoryComboBox::set_selection` (lines 313-337). -/
def DirectoryComboBox.set_selection (cb : DirectoryComboBox) (fs : FS)
    (path : Option Path) : DirectoryComboBox :=
  match path with
  | some p0 => cb.set_selection_some fs p0
  | none => { cb with selected_path := none, selected_file := none }

/-- The sibling list that `navigate_folder` dispatches to, made explicit for
the statements below: the roots when the selected file is a root path, else
the child list found by `rootsParentSearch`. -/
def DirectoryComboBox.siblingNodesGo (cb : DirectoryComboBox) (sel : Path) :
    Option (List DirectoryNode) :=
  if cb.roots.any (fun root => root.path == sel) then some cb.roots
  else
    match rootsParentSearch cb.roots sel with
    | some (_p, children) => some children
    | none => none

/-- The sibling list `navigate_folder` dispatches to, as a function of the
whole state. -/
def DirectoryComboBox.siblingNodes (cb : DirectoryComboBox) : Option (List DirectoryNode) :=
  match cb.selected_file with
  | none => none
  | some sel => cb.siblingNodesGo sel

/-- One engine operation of the selection/navigation engine: an external
selection request, or a sibling-step command. -/
inductive NavOp where
  | set : Option Path → NavOp
  | next : NavOp
  | prev : NavOp

/-- Apply one engine operation. -/
def applyOp (fs : FS) (cb : DirectoryComboBox) : NavOp → DirectoryComboBox
  | .set p => cb.set_selection fs p
  | .next => cb.select_next_file
  | .prev => cb.select_previous_file

/-- Apply a sequence of engine operations, oldest first. -/
def applyOps (fs : FS) (ops : List NavOp) (cb : DirectoryComboBox) : DirectoryComboBox :=
  ops.foldl (applyOp fs) cb

/-! Analysis vocabulary: preorder enumeration of a forest, the file paths of a
node list, and well-formedness of path-labelled trees. -/

/-- Depth-first, node-before-children enumeration of a forest. -/
def preorderList : List DirectoryNode → List DirectoryNode
  | [] => []
  | .File fp :: rest => .File fp :: preorderList rest
  | .Directory dp cs :: rest => .Directory dp cs :: (preorderList cs ++ preorderList rest)

/-- The paths of the `File` entries of a node list, in order. -/
def filePaths : List DirectoryNode → List Path
  | [] => []
  | .File fp :: rest => fp :: filePaths rest
  | .Directory _ _ :: rest => filePaths rest

/-- Two paths are incomparable when neither is an initial segment of the
other. -/
def incompPath (a b : Path) : Bool := !(a.isPrefixOf b) && !(b.isPrefixOf a)

/-- All pairs of entries of a path list are incomparable. -/
def pairwiseIncomp : List Path → Bool
  | [] => true
  | a :: rest => rest.all (incompPath a) && pairwiseIncomp rest

/-- Well-formed forest nodes: below every directory, each child path strictly
extends the directory path, the child paths are pairwise incomparable, and the
children are themselves well-formed.  Trees built from a real directory
hierarchy (distinct entry names one component below their parent) have this
shape. -/
def wfNodes : List DirectoryNode → Bool
  | [] => true
  | .File _ :: rest => wfNodes rest
  | .Directory dp cs :: rest =>
    cs.all (fun c => dp.isPrefixOf c.path && decide (dp.length < c.path.length))
    && pairwiseIncomp (cs.map DirectoryNode.path)
    && wfNodes cs && wfNodes rest

/-- A well-formed forest: well-formed trees with pairwise incomparable root
paths. -/
def wfForest (roots : List DirectoryNode) : Bool :=
  wfNodes roots && pairwiseIncomp (roots.map DirectoryNode.path)

/-- List-level form of `find_parent_directory`: the loop over a node list with
the body of the method inlined (a `File` entry yields nothing; a `Directory`
entry whose path starts `p` resolves within that entry). -/
def fpdList : List DirectoryNode → Path → Option DirectoryNode
  | [], _ => none
  | .File _ :: rest, p => fpdList rest p
  | .Directory dp cs :: rest, p =>
    if pathStartsWith p dp then
      match fpdList cs p with
      | some found => some found
      | none => some (.Directory dp cs)
    else fpdList rest p

/-- List-level form of `find_node_of_path`: the loop over a node list with the
body of the method inlined. -/
def fnpList : List DirectoryNode → Path → Option DirectoryNode
  | [], _ => none
  | .File fp :: rest, q =>
    if fp = q then some (.File fp) else fnpList rest q
  | .Directory dp cs :: rest, q =>
    if dp = q then some (.Directory dp cs)
    else
      match fnpList cs q with
      | some found => some found
      | none => fnpList rest q

/-- Path-level form of the first `navigate_nodes` loop: `scanNodes` only ever
inspects the `File` entries, so it is determined by their path list. -/
def scanPaths (filter : Option (Path → Bool)) (sel : Path) :
    Bool → List Path → Option Path × Bool
  | found, [] => (none, found)
  | found, p :: rest =>
    if p = sel then scanPaths filter sel true rest
    else if found && passes filter p then (some p, found)
    else scanPaths filter sel found rest

/-- Path-level form of the wrap-around loop. -/
def wrapPaths (filter : Option (Path → Bool)) : List Path → Option (Option Path)
  | [] => none
  | p :: _ => some (if passes filter p then some p else none)

/-! Bridges between the source-shaped functions and their list- or path-level
forms. -/

theorem findParentInChildren_eq_fpdList :
    ∀ (l : List DirectoryNode) (p : Path), findParentInChildren l p = fpdList l p := by
  intro l p
  induction l, p using fpdList.induct <;>
    simp_all [findParentInChildren, DirectoryNode.find_parent_directory, fpdList]

theorem find_parent_directory_eq_fpdList (n : DirectoryNode) (p : Path) :
    n.find_parent_directory p = fpdList [n] p := by
  cases n with
  | File fp => simp [DirectoryNode.find_parent_directory, fpdList]
  | Directory dp cs =>
    simp only [DirectoryNode.find_parent_directory, fpdList,
      findParentInChildren_eq_fpdList]

theorem findNodeInChildren_eq_fnpList :
    ∀ (l : List DirectoryNode) (q : Path), findNodeInChildren l q = fnpList l q := by
  intro l q
  induction l, q using fnpList.induct <;>
    simp_all [findNodeInChildren, DirectoryNode.find_node_of_path, fnpList]

theorem scanNodes_eq_scanPaths (filter : Option (Path → Bool)) (sel : Path) :
    ∀ (l : List DirectoryNode) (found : Bool),
      scanNodes filter sel found l = scanPaths filter sel found (filePaths l) := by
  intro l
  induction l with
  | nil => intro found; simp [scanNodes, filePaths, scanPaths]
  | cons c rest ih =>
    intro found
    cases c with
    | File fp => simp only [scanNodes, filePaths, scanPaths, ih]
    | Directory dp cs => simp only [scanNodes, filePaths, ih]

theorem wrapTarget_eq_wrapPaths (filter : Option (Path → Bool)) :
    ∀ l : List DirectoryNode, wrapTarget filter l = wrapPaths filter (filePaths l) := by
  intro l
  induction l with
  | nil => rfl
  | cons c rest ih =>
    cases c with
    | File fp => simp [wrapTarget, filePaths, wrapPaths]
    | Directory dp cs => simp [wrapTarget, filePaths, ih]

theorem filePaths_append :
    ∀ l₁ l₂ : List DirectoryNode, filePaths (l₁ ++ l₂) = filePaths l₁ ++ filePaths l₂ := by
  intro l₁ l₂
  induction l₁ with
  | nil => rfl
  | cons c rest ih => cases c <;> simp [filePaths, ih]

theorem filePaths_reverse :
    ∀ l : List DirectoryNode, filePaths l.reverse = (filePaths l).reverse := by
  intro l
  induction l with
  | nil => rfl
  | cons c rest ih =>
    cases c <;> simp [filePaths, List.reverse_cons, filePaths_append, ih]

/-! Behaviour of the path-level scan and wrap loops. -/

theorem scanPaths_skip (f : Option (Path → Bool)) (sel : Path) :
    ∀ (A rest : List Path), sel ∉ A →
      scanPaths f sel false (A ++ rest) = scanPaths f sel false rest := by
  intro A rest hA
  induction A with
  | nil => rfl
  | cons a A' ih =>
    have ha : ¬(a = sel) := fun h => hA (by simp [h])
    have hA' : sel ∉ A' := fun h => hA (List.mem_cons_of_mem _ h)
    simp [scanPaths, ha, ih hA']

theorem scanPaths_stall (f : Option (Path → Bool)) (sel : Path) :
    ∀ B : List Path, (∀ b ∈ B, b = sel ∨ passes f b = false) →
      scanPaths f sel true B = (none, true) := by
  intro B hB
  induction B with
  | nil => rfl
  | cons b B' ih =>
    have hB' : ∀ x ∈ B', x = sel ∨ passes f x = false :=
      fun x hx => hB x (List.mem_cons_of_mem _ hx)
    rcases hB b (List.mem_cons_self _ _) with hb | hb
    · simp [scanPaths, hb, ih hB']
    · by_cases hbs : b = sel
      · simp [scanPaths, hbs, ih hB']
      · simp [scanPaths, hbs, hb, ih hB']

theorem scanPaths_not_found (f : Option (Path → Bool)) (sel : Path) :
    ∀ F : List Path, sel ∉ F → scanPaths f sel false F = (none, false) := by
  intro F hF
  induction F with
  | nil => rfl
  | cons p F' ih =>
    have hp : ¬(p = sel) := fun h => hF (by simp [h])
    have hF' : sel ∉ F' := fun h => hF (List.mem_cons_of_mem _ h)
    simp [scanPaths, hp, ih hF']

theorem scanPaths_mem (f : Option (Path → Bool)) (sel : Path) :
    ∀ (F : List Path) (found : Bool) (p : Path) (b : Bool),
      scanPaths f sel found F = (some p, b) → p ∈ F := by
  intro F
  induction F with
  | nil => intro found p b h; simp [scanPaths] at h
  | cons q F' ih =>
    intro found p b h
    by_cases hq : q = sel
    · simp only [scanPaths, if_pos hq] at h
      exact List.mem_cons_of_mem _ (ih _ _ _ h)
    · by_cases htake : (found && passes f q) = true
      · simp only [scanPaths, if_neg hq, htake, if_pos] at h
        simp only [Prod.mk.injEq, Option.some.injEq] at h
        simp [h.1]
      · simp only [scanPaths, if_neg hq, htake] at h
        exact List.mem_cons_of_mem _ (ih _ _ _ h)

theorem wrapPaths_mem (f : Option (Path → Bool)) :
    ∀ (F : List Path) (p : Path), wrapPaths f F = some (some p) → p ∈ F := by
  intro F p h
  cases F with
  | nil => simp [wrapPaths] at h
  | cons q F' =>
    by_cases hq : passes f q = true
    · simp [wrapPaths, hq] at h
      simp [h]
    · simp [wrapPaths, hq] at h

/-- Every outcome of `navigateOriented`: unchanged, or both cursor fields set
to one file path of the iterated list. -/
theorem navigateOriented_cases (iter : List DirectoryNode)
    (f : Option (Path → Bool)) (sel : Path) (sp sf : Option Path) :
    navigateOriented iter f sel sp sf = (sp, sf) ∨
    ∃ fp, navigateOriented iter f sel sp sf = (some fp, some fp) ∧ fp ∈ filePaths iter := by
  unfold navigateOriented
  rcases hscan : scanNodes f sel false iter with ⟨tgt, found⟩
  cases tgt with
  | some fp =>
    right
    refine ⟨fp, rfl, ?_⟩
    rw [scanNodes_eq_scanPaths] at hscan
    exact scanPaths_mem f sel _ _ _ _ hscan
  | none =>
    cases found with
    | false => left; rfl
    | true =>
      rcases hwrap : wrapTarget f iter with _ | ⟨_ | fp⟩
      · left; simp [hwrap]
      · left; simp [hwrap]
      · right
        refine ⟨fp, by simp [hwrap], ?_⟩
        rw [wrapTarget_eq_wrapPaths] at hwrap
        exact wrapPaths_mem f _ _ hwrap

/-- Every outcome of `navigate_nodes`: unchanged, or both cursor fields set to
one file path of the node list. -/
theorem navigate_nodes_cases (nodes : List DirectoryNode) (fwd : Bool)
    (f : Option (Path → Bool)) (sp sf : Option Path) :
    navigate_nodes nodes fwd f sp sf = (sp, sf) ∨
    ∃ fp, navigate_nodes nodes fwd f sp sf = (some fp, some fp) ∧ fp ∈ filePaths nodes := by
  unfold navigate_nodes
  cases sf with
  | none => left; rfl
  | some sel =>
    rcases navigateOriented_cases (if fwd then nodes else nodes.reverse) f sel sp (some sel) with
      h | ⟨fp, h, hmem⟩
    · left; exact h
    · right
      refine ⟨fp, h, ?_⟩
      cases fwd with
      | true => simpa using hmem
      | false =>
        simp only [Bool.false_eq_true, if_false, filePaths_reverse, List.mem_reverse] at hmem
        exact hmem

/-! Preorder enumeration, incomparability and well-formedness lemmas. -/

theorem preorderList_nil : preorderList [] = [] := by
  simp [preorderList]

theorem preorderList_cons_file (fp : Path) (rest : List DirectoryNode) :
    preorderList (.File fp :: rest) = .File fp :: preorderList rest := by
  simp [preorderList]

theorem preorderList_cons_dir (dp : Path) (cs rest : List DirectoryNode) :
    preorderList (.Directory dp cs :: rest) =
      .Directory dp cs :: (preorderList cs ++ preorderList rest) := by
  simp [preorderList]

theorem preorderList_append :
    ∀ l₁ l₂ : List DirectoryNode,
      preorderList (l₁ ++ l₂) = preorderList l₁ ++ preorderList l₂ := by
  intro l₁
  induction l₁ with
  | nil => intro l₂; simp [preorderList_nil]
  | cons c rest ih =>
    intro l₂
    cases c with
    | File fp => simp [preorderList_cons_file, ih]
    | Directory dp cs => simp [preorderList_cons_dir, ih]

theorem mem_preorderList_of_mem :
    ∀ l : List DirectoryNode, ∀ x ∈ l, x ∈ preorderList l := by
  intro l
  induction l with
  | nil => intro x hx; cases hx
  | cons c rest ih =>
    intro x hx
    rcases List.mem_cons.mp hx with h | h
    · cases c <;> (subst h; simp [preorderList])
    · cases c <;> simp [preorderList, ih x h]

theorem incompPath_symm (a b : Path) : incompPath a b = incompPath b a := by
  simp only [incompPath]
  exact Bool.and_comm _ _

theorem incompPath_spec (a b : Path) :
    incompPath a b = true ↔ ¬(a <+: b) ∧ ¬(b <+: a) := by
  unfold incompPath
  simp only [Bool.and_eq_true, Bool.not_eq_true']
  constructor
  · rintro ⟨h1, h2⟩
    refine ⟨fun hc => ?_, fun hc => ?_⟩
    · rw [← List.isPrefixOf_iff_prefix] at hc; rw [hc] at h1; cases h1
    · rw [← List.isPrefixOf_iff_prefix] at hc; rw [hc] at h2; cases h2
  · rintro ⟨h1, h2⟩
    refine ⟨?_, ?_⟩
    · cases hb : List.isPrefixOf a b
      · rfl
      · exact absurd ( List.isPrefixOf_iff_prefix.mp hb) h1
    · cases hb : List.isPrefixOf b a
      · rfl
      · exact absurd ( List.isPrefixOf_iff_prefix.mp hb) h2

theorem incompPath_ne (a b : Path) (h : incompPath a b = true) : a ≠ b := by
  intro hab
  subst hab
  rw [incompPath_spec] at h
  exact h.1 (List.prefix_refl a)

theorem pairwiseIncomp_tail (a : Path) (ps : List Path)
    (h : pairwiseIncomp (a :: ps) = true) : pairwiseIncomp ps = true := by
  simp only [pairwiseIncomp, Bool.and_eq_true] at h
  exact h.2

theorem pairwiseIncomp_head (a : Path) (ps : List Path)
    (h : pairwiseIncomp (a :: ps) = true) : ∀ b ∈ ps, incompPath a b = true := by
  simp only [pairwiseIncomp, Bool.and_eq_true, List.all_eq_true] at h
  exact h.1

theorem pairwiseIncomp_elem :
    ∀ ps : List Path, pairwiseIncomp ps = true →
      ∀ a ∈ ps, ∀ b ∈ ps, incompPath a b = true ∨ a = b := by
  intro ps
  induction ps with
  | nil => intro _ a ha; cases ha
  | cons h rest ih =>
    intro hp a ha b hb
    rcases List.mem_cons.mp ha with ha' | ha' <;> rcases List.mem_cons.mp hb with hb' | hb'
    · right; rw [ha', hb']
    · left; rw [ha']; exact pairwiseIncomp_head _ _ hp b hb'
    · left; rw [hb', incompPath_symm]; exact pairwiseIncomp_head _ _ hp a ha'
    · exact ih (pairwiseIncomp_tail _ _ hp) a ha' b hb'

theorem pairwiseIncomp_nodup :
    ∀ ps : List Path, pairwiseIncomp ps = true → ps.Nodup := by
  intro ps
  induction ps with
  | nil => intro _; exact List.nodup_nil
  | cons h rest ih =>
    intro hp
    refine List.nodup_cons.mpr ⟨?_, ih (pairwiseIncomp_tail _ _ hp)⟩
    intro hmem
    exact incompPath_ne _ _ (pairwiseIncomp_head _ _ hp h hmem) rfl

theorem wfNodes_tail (c : DirectoryNode) (rest : List DirectoryNode)
    (h : wfNodes (c :: rest) = true) : wfNodes rest = true := by
  cases c with
  | File fp => simpa [wfNodes] using h
  | Directory dp cs =>
    simp only [wfNodes, Bool.and_eq_true] at h
    exact h.2

theorem wfNodes_head_dir (dp : Path) (cs rest : List DirectoryNode)
    (h : wfNodes (.Directory dp cs :: rest) = true) :
    (∀ c ∈ cs, dp <+: c.path ∧ dp.length < c.path.length) ∧
      pairwiseIncomp (cs.map DirectoryNode.path) = true ∧ wfNodes cs = true := by
  simp only [wfNodes, Bool.and_eq_true, List.all_eq_true] at h
  refine ⟨?_, h.1.1.2, h.1.2⟩
  intro c hc
  have := h.1.1.1 c hc
  simp only [Bool.and_eq_true, List.isPrefixOf_iff_prefix, decide_eq_true_eq] at this
  exact this

/-- Below a well-formed child list of a directory at `dp`, every preorder
descendant path strictly extends `dp`. -/
theorem preorder_under :
    ∀ cs : List DirectoryNode, ∀ dp : Path, wfNodes cs = true →
      (∀ c ∈ cs, dp <+: c.path ∧ dp.length < c.path.length) →
      ∀ x ∈ preorderList cs, dp <+: x.path ∧ dp.length < x.path.length := by
  intro cs
  induction cs using preorderList.induct with
  | case1 => intro dp _ _ x hx; rw [preorderList_nil] at hx; cases hx
  | case2 fp rest ih =>
    intro dp hwf hcond x hx
    rw [preorderList_cons_file] at hx
    rcases List.mem_cons.mp hx with h | h
    · subst h; exact hcond _ (List.mem_cons_self _ _)
    · exact ih dp (wfNodes_tail _ _ hwf) (fun c hc => hcond c (List.mem_cons_of_mem _ hc)) x h
  | case3 dq ds rest ihd ihr =>
    intro dp hwf hcond x hx
    have hhead := hcond _ (List.mem_cons_self _ _)
    simp only [DirectoryNode.path] at hhead
    rw [preorderList_cons_dir] at hx
    rcases List.mem_cons.mp hx with h | h
    · subst h; exact hhead
    rcases List.mem_append.mp h with h | h
    · have hd := wfNodes_head_dir dq ds rest hwf
      refine ihd dp hd.2.2 ?_ x h
      intro c hc
      have hc' := hd.1 c hc
      exact ⟨hhead.1.trans hc'.1, lt_trans hhead.2 hc'.2⟩
    · exact ihr dp (wfNodes_tail _ _ hwf) (fun c hc => hcond c (List.mem_cons_of_mem _ hc)) x h

/-- Every preorder member of a well-formed forest lies in the preorder of one
of the forest's entries, whose path is an initial segment of its path. -/
theorem preorder_decomp :
    ∀ l : List DirectoryNode, wfNodes l = true →
      ∀ x ∈ preorderList l, ∃ c ∈ l, x ∈ preorderList [c] ∧
        c.path <+: x.path ∧ c.path.length ≤ x.path.length := by
  intro l
  induction l with
  | nil => intro _ x hx; rw [preorderList_nil] at hx; cases hx
  | cons c rest ih =>
    intro hwf x hx
    cases c with
    | File fp =>
      rw [preorderList_cons_file] at hx
      rcases List.mem_cons.mp hx with h | h
      · subst h
        exact ⟨.File fp, List.mem_cons_self _ _, by simp [preorderList_cons_file, preorderList_nil],
          List.prefix_refl _, le_refl _⟩
      · rcases ih (wfNodes_tail _ _ hwf) x h with ⟨c, hc, hmem, hle, hlen⟩
        exact ⟨c, List.mem_cons_of_mem _ hc, hmem, hle, hlen⟩
    | Directory dp cs =>
      rw [preorderList_cons_dir] at hx
      rcases List.mem_cons.mp hx with h | h
      · subst h
        exact ⟨.Directory dp cs, List.mem_cons_self _ _,
          by simp [preorderList_cons_dir], List.prefix_refl _, le_refl _⟩
      rcases List.mem_append.mp h with h | h
      · have hd := wfNodes_head_dir dp cs rest hwf
        have hu := preorder_under cs dp hd.2.2 hd.1 x h
        refine ⟨.Directory dp cs, List.mem_cons_self _ _, ?_, hu.1, le_of_lt hu.2⟩
        rw [preorderList_cons_dir]
        simp [h]
      · rcases ih (wfNodes_tail _ _ hwf) x h with ⟨c, hc, hmem, hle, hlen⟩
        exact ⟨c, List.mem_cons_of_mem _ hc, hmem, hle, hlen⟩

/-- Well-formedness data at an inner directory of a well-formed forest. -/
theorem wfNodes_at :
    ∀ l : List DirectoryNode, wfNodes l = true →
      ∀ dp cs, (.Directory dp cs) ∈ preorderList l →
        (∀ c ∈ cs, dp <+: c.path ∧ dp.length < c.path.length) ∧
          pairwiseIncomp (cs.map DirectoryNode.path) = true ∧ wfNodes cs = true := by
  intro l
  induction l using preorderList.induct with
  | case1 => intro _ dp cs h; rw [preorderList_nil] at h; cases h
  | case2 fp rest ih =>
    intro hwf dp cs h
    rw [preorderList_cons_file] at h
    rcases List.mem_cons.mp h with h' | h'
    · cases h'
    · exact ih (wfNodes_tail _ _ hwf) dp cs h'
  | case3 dq ds rest ihd ihr =>
    intro hwf dp cs h
    have hd := wfNodes_head_dir dq ds rest hwf
    rw [preorderList_cons_dir] at h
    rcases List.mem_cons.mp h with h' | h'
    · injection h' with h1 h2
      subst h1; subst h2
      exact hd
    rcases List.mem_append.mp h' with h' | h'
    · exact ihd hd.2.2 dp cs h'
    · exact ihr (wfNodes_tail _ _ hwf) dp cs h'

/-! Characterization of `find_parent_directory`. -/

theorem fpdList_nil (p : Path) : fpdList [] p = none := by
  simp [fpdList]

theorem fpdList_cons_file (fp : Path) (rest : List DirectoryNode) (p : Path) :
    fpdList (.File fp :: rest) p = fpdList rest p := by
  simp [fpdList]

theorem fpdList_cons_dir (dp : Path) (cs rest : List DirectoryNode) (p : Path) :
    fpdList (.Directory dp cs :: rest) p =
      if pathStartsWith p dp then
        match fpdList cs p with
        | some found => some found
        | none => some (.Directory dp cs)
      else fpdList rest p := by
  simp [fpdList]

/-- Search `find_parent_directory` never yields a `File` node. -/
theorem fpdList_isDir :
    ∀ (l : List DirectoryNode) (p : Path) (d : DirectoryNode),
      fpdList l p = some d → d.isDirNode = true := by
  intro l p
  induction l, p using fpdList.induct with
  | case1 p => intro d h; rw [fpdList_nil] at h; cases h
  | case2 fp rest p ih => intro d h; rw [fpdList_cons_file] at h; exact ih d h
  | case3 dp cs rest p hpre found hfound ih =>
    intro d h
    rw [fpdList_cons_dir, if_pos hpre, hfound] at h
    injection h with h'
    subst h'
    exact ih _ hfound
  | case4 dp cs rest p hpre hnone ih =>
    intro d h
    rw [fpdList_cons_dir, if_pos hpre, hnone] at h
    injection h with h'
    subst h'
    rfl
  | case5 dp cs rest p hpre ih =>
    intro d h
    rw [fpdList_cons_dir, if_neg hpre] at h
    exact ih d h

/-- Search `find_parent_directory` yields a node of the forest. -/
theorem fpdList_mem :
    ∀ (l : List DirectoryNode) (p : Path) (d : DirectoryNode),
      fpdList l p = some d → d ∈ preorderList l := by
  intro l p
  induction l, p using fpdList.induct with
  | case1 p => intro d h; rw [fpdList_nil] at h; cases h
  | case2 fp rest p ih =>
    intro d h
    rw [fpdList_cons_file] at h
    rw [preorderList_cons_file]
    exact List.mem_cons_of_mem _ (ih d h)
  | case3 dp cs rest p hpre found hfound ih =>
    intro d h
    rw [fpdList_cons_dir, if_pos hpre, hfound] at h
    injection h with h'
    subst h'
    rw [preorderList_cons_dir]
    exact List.mem_cons_of_mem _ (List.mem_append.mpr (Or.inl (ih _ hfound)))
  | case4 dp cs rest p hpre hnone ih =>
    intro d h
    rw [fpdList_cons_dir, if_pos hpre, hnone] at h
    injection h with h'
    subst h'
    rw [preorderList_cons_dir]
    exact List.mem_cons_self _ _
  | case5 dp cs rest p hpre ih =>
    intro d h
    rw [fpdList_cons_dir, if_neg hpre] at h
    rw [preorderList_cons_dir]
    exact List.mem_cons_of_mem _ (List.mem_append.mpr (Or.inr (ih d h)))

/-- In a well-formed forest whose entry paths are all incomparable with `dp`,
no preorder member's path can start a path `p` that `dp` starts. -/
theorem no_claim_in_rest (dp : Path) (rest : List DirectoryNode) (p : Path)
    (hwf : wfNodes rest = true)
    (hinc : ∀ b ∈ rest.map DirectoryNode.path, incompPath dp b = true)
    (hpre : dp <+: p) :
    ∀ x ∈ preorderList rest, ¬(x.path <+: p) := by
  intro x hx hxp
  rcases preorder_decomp rest hwf x hx with ⟨c, hc, _, hle, _⟩
  have hcp : c.path <+: p := hle.trans hxp
  have hcomp := List.prefix_or_prefix_of_prefix hpre hcp
  have hincc := hinc c.path (List.mem_map.mpr ⟨c, hc, rfl⟩)
  rw [incompPath_spec] at hincc
  rcases hcomp with h | h
  · exact hincc.1 h
  · exact hincc.2 h

/-- The main characterization of `find_parent_directory` over a well-formed
forest: a `some` answer is a directory of the forest whose path starts `p` and
has maximal length among all such directories; a `none` answer means no
directory of the forest has a path starting `p`. -/
theorem fpdList_spec :
    ∀ (l : List DirectoryNode) (p : Path),
      wfNodes l = true → pairwiseIncomp (l.map DirectoryNode.path) = true →
      (∀ d, fpdList l p = some d →
        d.isDirNode = true ∧ d ∈ preorderList l ∧ d.path <+: p ∧
        ∀ x ∈ preorderList l, x.isDirNode = true → x.path <+: p →
          x.path.length ≤ d.path.length) ∧
      (fpdList l p = none →
        ∀ x ∈ preorderList l, x.isDirNode = true → ¬(x.path <+: p)) := by
  intro l p
  induction l, p using fpdList.induct with
  | case1 p =>
    intro _ _
    constructor
    · intro d h; rw [fpdList_nil] at h; cases h
    · intro _ x hx; rw [preorderList_nil] at hx; cases hx
  | case2 fp rest p ih =>
    intro hwf hinc
    have ih' := ih (wfNodes_tail _ _ hwf) (pairwiseIncomp_tail _ _ hinc)
    constructor
    · intro d h
      rw [fpdList_cons_file] at h
      rcases ih'.1 d h with ⟨hdir, hmem, hdp, hmax⟩
      refine ⟨hdir, by rw [preorderList_cons_file]; exact List.mem_cons_of_mem _ hmem, hdp, ?_⟩
      intro x hx hxdir hxp
      rw [preorderList_cons_file] at hx
      rcases List.mem_cons.mp hx with h' | h'
      · subst h'; cases hxdir
      · exact hmax x h' hxdir hxp
    · intro h x hx hxdir hxp
      rw [fpdList_cons_file] at h
      rw [preorderList_cons_file] at hx
      rcases List.mem_cons.mp hx with h' | h'
      · subst h'; cases hxdir
      · exact ih'.2 h x h' hxdir hxp
  | case3 dp cs rest p hpre found hfound ih =>
    intro hwf hinc
    have hd := wfNodes_head_dir dp cs rest hwf
    have ih' := ih hd.2.2 hd.2.1
    have hdpp : dp <+: p := by
      rw [← List.isPrefixOf_iff_prefix]
      exact hpre
    have hrest := no_claim_in_rest dp rest p (wfNodes_tail _ _ hwf)
      (by
        intro b hb
        exact pairwiseIncomp_head _ _ (by simpa using hinc) b (by simpa using hb)) hdpp
    constructor
    · intro d h
      rw [fpdList_cons_dir, if_pos hpre, hfound] at h
      injection h with h'
      subst h'
      rcases ih'.1 found hfound with ⟨hdir, hmem, hdp, hmax⟩
      have hfu := preorder_under cs dp hd.2.2 hd.1 found hmem
      refine ⟨hdir, ?_, hdp, ?_⟩
      · rw [preorderList_cons_dir]
        exact List.mem_cons_of_mem _ (List.mem_append.mpr (Or.inl hmem))
      · intro x hx hxdir hxp
        rw [preorderList_cons_dir] at hx
        rcases List.mem_cons.mp hx with h' | h'
        · subst h'
          simp only [DirectoryNode.path]
          exact le_of_lt hfu.2
        rcases List.mem_append.mp h' with h' | h'
        · exact hmax x h' hxdir hxp
        · exact absurd hxp (hrest x h')
    · intro h
      rw [fpdList_cons_dir, if_pos hpre, hfound] at h
      cases h
  | case4 dp cs rest p hpre hnone ih =>
    intro hwf hinc
    have hd := wfNodes_head_dir dp cs rest hwf
    have ih' := ih hd.2.2 hd.2.1
    have hdpp : dp <+: p := by
      rw [← List.isPrefixOf_iff_prefix]
      exact hpre
    have hrest := no_claim_in_rest dp rest p (wfNodes_tail _ _ hwf)
      (by
        intro b hb
        exact pairwiseIncomp_head _ _ (by simpa using hinc) b (by simpa using hb)) hdpp
    constructor
    · intro d h
      rw [fpdList_cons_dir, if_pos hpre, hnone] at h
      injection h with h'
      subst h'
      refine ⟨rfl, by rw [preorderList_cons_dir]; exact List.mem_cons_self _ _, hdpp, ?_⟩
      intro x hx hxdir hxp
      rw [preorderList_cons_dir] at hx
      rcases List.mem_cons.mp hx with h' | h'
      · subst h'; exact le_refl _
      rcases List.mem_append.mp h' with h' | h'
      · exact absurd hxp (ih'.2 hnone x h' hxdir)
      · exact absurd hxp (hrest x h')
    · intro h
      rw [fpdList_cons_dir, if_pos hpre, hnone] at h
      cases h
  | case5 dp cs rest p hpre ih =>
    intro hwf hinc
    have hd := wfNodes_head_dir dp cs rest hwf
    have ih' := ih (wfNodes_tail _ _ hwf) (pairwiseIncomp_tail _ _ hinc)
    have hnpre : ¬(dp <+: p) := by
      intro hc
      rw [← List.isPrefixOf_iff_prefix] at hc
      exact hpre hc
    have hcs : ∀ x ∈ preorderList cs, x.isDirNode = true → ¬(x.path <+: p) := by
      intro x hx _ hxp
      have hu := preorder_under cs dp hd.2.2 hd.1 x hx
      exact hnpre (hu.1.trans hxp)
    constructor
    · intro d h
      rw [fpdList_cons_dir, if_neg hpre] at h
      rcases ih'.1 d h with ⟨hdir, hmem, hdp, hmax⟩
      refine ⟨hdir, ?_, hdp, ?_⟩
      · rw [preorderList_cons_dir]
        exact List.mem_cons_of_mem _ (List.mem_append.mpr (Or.inr hmem))
      · intro x hx hxdir hxp
        rw [preorderList_cons_dir] at hx
        rcases List.mem_cons.mp hx with h' | h'
        · subst h'
          exact absurd hxp hnpre
        rcases List.mem_append.mp h' with h' | h'
        · exact absurd hxp (hcs x h' hxdir)
        · exact hmax x h' hxdir hxp
    · intro h x hx hxdir hxp
      rw [fpdList_cons_dir, if_neg hpre] at h
      rw [preorderList_cons_dir] at hx
      rcases List.mem_cons.mp hx with h' | h'
      · subst h'; exact hnpre hxp
      rcases List.mem_append.mp h' with h' | h'
      · exact hcs x h' hxdir hxp
      · exact ih'.2 h x h' hxdir hxp

/-! Forest-structure lemmas used by the navigation round-trip analysis. -/

/-- The preorder members of an inner directory's child list are preorder
members of the forest. -/
theorem preorder_sub :
    ∀ l : List DirectoryNode, ∀ q cs, (.Directory q cs) ∈ preorderList l →
      ∀ y ∈ preorderList cs, y ∈ preorderList l := by
  intro l
  induction l using preorderList.induct with
  | case1 =>
    intro q cs h
    rw [preorderList_nil] at h
    cases h
  | case2 fp rest ih =>
    intro q cs h y hy
    rw [preorderList_cons_file] at h ⊢
    rcases List.mem_cons.mp h with h' | h'
    · exact absurd h' (by intro hc; cases hc)
    · exact List.mem_cons_of_mem _ (ih q cs h' y hy)
  | case3 dq ds rest ihd ihr =>
    intro q cs h y hy
    rw [preorderList_cons_dir] at h ⊢
    rcases List.mem_cons.mp h with h' | h'
    · injection h' with h1 h2
      subst h1; subst h2
      exact List.mem_cons_of_mem _ (List.mem_append.mpr (Or.inl hy))
    rcases List.mem_append.mp h' with h' | h'
    · exact List.mem_cons_of_mem _ (List.mem_append.mpr (Or.inl (ihd q cs h' y hy)))
    · exact List.mem_cons_of_mem _ (List.mem_append.mpr (Or.inr (ihr q cs h' y hy)))

/-- In a well-formed forest, a preorder member whose path strictly extends the
path of an inner directory lies below that directory. -/
theorem preorder_chain :
    ∀ l : List DirectoryNode, wfNodes l = true →
      pairwiseIncomp (l.map DirectoryNode.path) = true →
      ∀ q cs, (.Directory q cs) ∈ preorderList l →
      ∀ x ∈ preorderList l, q <+: x.path → q.length < x.path.length →
        x ∈ preorderList cs := by
  intro l
  induction l using preorderList.induct with
  | case1 =>
    intro _ _ q cs h
    rw [preorderList_nil] at h
    cases h
  | case2 fp rest ih =>
    intro hwf hinc q cs hq x hx hqx hlen
    rw [preorderList_cons_file] at hq hx
    rcases List.mem_cons.mp hq with h' | h'
    · exact absurd h' (by intro hc; cases hc)
    rcases List.mem_cons.mp hx with hx' | hx'
    · subst hx'
      rcases preorder_decomp rest (wfNodes_tail _ _ hwf) _ h' with ⟨c, hc, _, hcple, _⟩
      simp only [DirectoryNode.path] at hcple hqx
      have hno := no_claim_in_rest fp rest fp (wfNodes_tail _ _ hwf)
        (fun b hb => pairwiseIncomp_head _ _ (by simpa using hinc) b hb)
        (List.prefix_refl _) c (mem_preorderList_of_mem rest c hc)
      exact absurd (hcple.trans hqx) hno
    · exact ih (wfNodes_tail _ _ hwf) (pairwiseIncomp_tail _ _ hinc) q cs h' x hx' hqx hlen
  | case3 dq ds rest ihd ihr =>
    intro hwf hinc q cs hq x hx hqx hlen
    have hd := wfNodes_head_dir dq ds rest hwf
    have hincr : ∀ b ∈ rest.map DirectoryNode.path, incompPath dq b = true :=
      fun b hb => pairwiseIncomp_head _ _ (by simpa using hinc) b hb
    rw [preorderList_cons_dir] at hq hx
    rcases List.mem_cons.mp hq with hq' | hq'
    · -- the directory is the head itself
      injection hq' with h1 h2
      subst h1; subst h2
      rcases List.mem_cons.mp hx with hx' | hx'
      · subst hx'
        simp only [DirectoryNode.path] at hlen
        exact absurd hlen (lt_irrefl _)
      rcases List.mem_append.mp hx' with hx' | hx'
      · exact hx'
      · have hno := no_claim_in_rest q rest x.path (wfNodes_tail _ _ hwf) hincr hqx x hx'
        exact absurd (List.prefix_refl _) hno
    rcases List.mem_append.mp hq' with hq' | hq'
    · -- the directory lies below the head's children
      have hqpath : dq <+: q ∧ dq.length < q.length := by
        have := preorder_under ds dq hd.2.2 hd.1 _ hq'
        simpa [DirectoryNode.path] using this
      rcases List.mem_cons.mp hx with hx' | hx'
      · subst hx'
        simp only [DirectoryNode.path] at hqx hlen
        have h1 : q.length ≤ dq.length := hqx.length_le
        exact absurd (lt_of_lt_of_le hqpath.2 h1) (lt_irrefl _)
      rcases List.mem_append.mp hx' with hx' | hx'
      · exact ihd hd.2.2 hd.2.1 q cs hq' x hx' hqx hlen
      · have hno := no_claim_in_rest dq rest x.path (wfNodes_tail _ _ hwf) hincr
          (hqpath.1.trans hqx) x hx'
        exact absurd (List.prefix_refl _) hno
    · -- the directory lies in the remaining entries
      rcases List.mem_cons.mp hx with hx' | hx'
      · subst hx'
        simp only [DirectoryNode.path] at hqx
        have hno := no_claim_in_rest dq rest dq (wfNodes_tail _ _ hwf) hincr
          (List.prefix_refl _) _ hq'
        simp only [DirectoryNode.path] at hno
        exact absurd hqx hno
      rcases List.mem_append.mp hx' with hx' | hx'
      · have hdqx : dq <+: x.path := (preorder_under ds dq hd.2.2 hd.1 x hx').1
        have hno := no_claim_in_rest dq rest x.path (wfNodes_tail _ _ hwf) hincr hdqx _ hq'
        simp only [DirectoryNode.path] at hno
        exact absurd hqx hno
      · exact ihr (wfNodes_tail _ _ hwf) (pairwiseIncomp_tail _ _ hinc) q cs hq' x hx' hqx hlen

/-! Nodup transfer and structural sublists. -/

theorem self_sublist_preorder : ∀ l : List DirectoryNode, l.Sublist (preorderList l) := by
  intro l
  induction l with
  | nil => simp [preorderList_nil]
  | cons c rest ih =>
    cases c with
    | File fp =>
      rw [preorderList_cons_file]
      exact List.Sublist.cons₂ _ ih
    | Directory dp cs =>
      rw [preorderList_cons_dir]
      exact List.Sublist.cons₂ _ (ih.trans (List.sublist_append_right _ _))

theorem filePaths_sublist_paths :
    ∀ l : List DirectoryNode, (filePaths l).Sublist (l.map DirectoryNode.path) := by
  intro l
  induction l with
  | nil => simp [filePaths]
  | cons c rest ih =>
    cases c with
    | File fp => simpa [filePaths, DirectoryNode.path] using List.Sublist.cons₂ fp ih
    | Directory dp cs => simpa [filePaths, DirectoryNode.path] using List.Sublist.cons dp ih

/-- With pairwise distinct node paths across the forest, equal paths mean
equal nodes. -/
theorem node_inj (l : List DirectoryNode)
    (hnd : ((preorderList l).map DirectoryNode.path).Nodup) :
    ∀ x ∈ preorderList l, ∀ y ∈ preorderList l, x.path = y.path → x = y := by
  intro x hx y hy hxy
  exact List.inj_on_of_nodup_map hnd hx hy hxy

/-! The root loop of `navigate_folder` versus the list-level
`find_parent_directory`. -/

theorem fpdList_cons_split (r : DirectoryNode) (rest : List DirectoryNode) (p : Path) :
    fpdList (r :: rest) p =
      match fpdList [r] p with
      | some d => some d
      | none => fpdList rest p := by
  cases r with
  | File fp => rw [fpdList_cons_file, fpdList_cons_file, fpdList_nil]
  | Directory dp cs =>
    by_cases hpre : pathStartsWith p dp = true
    · rw [fpdList_cons_dir, fpdList_cons_dir, if_pos hpre, if_pos hpre]
      cases h : fpdList cs p <;> simp [h]
    · rw [fpdList_cons_dir, fpdList_cons_dir, if_neg hpre, if_neg hpre, fpdList_nil]

theorem rootsParentSearch_eq :
    ∀ (l : List DirectoryNode) (p : Path),
      rootsParentSearch l p =
        match fpdList l p with
        | some (.Directory q cs) => some (q, cs)
        | _ => none := by
  intro l p
  induction l with
  | nil => simp [rootsParentSearch, fpdList_nil]
  | cons r rest ih =>
    rw [fpdList_cons_split]
    cases h : fpdList [r] p with
    | none =>
      have hr : r.find_parent_directory p = none := by
        rw [find_parent_directory_eq_fpdList, h]
      simp only [rootsParentSearch, hr, ih]
    | some d =>
      have hdir := fpdList_isDir [r] p d h
      cases d with
      | File fp => cases hdir
      | Directory q cs =>
        have hr : r.find_parent_directory p = some (.Directory q cs) := by
          rw [find_parent_directory_eq_fpdList, h]
        simp only [rootsParentSearch, hr]

/-! Field preservation and dispatch form of `navigate_folder`. -/

theorem navigate_folder_some (cb : DirectoryComboBox) (fwd : Bool) (sel : Path)
    (hsel : cb.selected_file = some sel) :
    cb.navigate_folder fwd = cb.navigate_folder_go fwd sel := by
  unfold DirectoryComboBox.navigate_folder
  rw [hsel]

theorem siblingNodes_some (cb : DirectoryComboBox) (sel : Path)
    (hsel : cb.selected_file = some sel) :
    cb.siblingNodes = cb.siblingNodesGo sel := by
  unfold DirectoryComboBox.siblingNodes
  rw [hsel]

theorem navigate_folder_go_fields (cb : DirectoryComboBox) (fwd : Bool) (sel : Path) :
    (cb.navigate_folder_go fwd sel).roots = cb.roots ∧
    (cb.navigate_folder_go fwd sel).filter = cb.filter ∧
    (cb.navigate_folder_go fwd sel).select_files_only = cb.select_files_only ∧
    (cb.navigate_folder_go fwd sel).show_extensions = cb.show_extensions ∧
    (cb.navigate_folder_go fwd sel).back_button = cb.back_button := by
  unfold DirectoryComboBox.navigate_folder_go
  by_cases hany : cb.roots.any (fun root => root.path == sel) = true
  · simp [hany]
  · simp only [hany, Bool.false_eq_true, if_false]
    cases rootsParentSearch cb.roots sel with
    | none => simp
    | some pr => cases pr with | mk q children => simp

theorem navigate_folder_fields (cb : DirectoryComboBox) (fwd : Bool) :
    (cb.navigate_folder fwd).roots = cb.roots ∧
    (cb.navigate_folder fwd).filter = cb.filter ∧
    (cb.navigate_folder fwd).select_files_only = cb.select_files_only ∧
    (cb.navigate_folder fwd).show_extensions = cb.show_extensions ∧
    (cb.navigate_folder fwd).back_button = cb.back_button := by
  unfold DirectoryComboBox.navigate_folder
  cases cb.selected_file with
  | none => simp
  | some sel => exact navigate_folder_go_fields cb fwd sel

theorem navigate_folder_of_sib (cb : DirectoryComboBox) (fwd : Bool)
    (sel : Path) (L : List DirectoryNode)
    (hsel : cb.selected_file = some sel) (hsib : cb.siblingNodes = some L) :
    cb.navigate_folder fwd =
      { cb with
        selected_path := (navigate_nodes L fwd cb.filter cb.selected_path cb.selected_file).1
        selected_file := (navigate_nodes L fwd cb.filter cb.selected_path cb.selected_file).2 } := by
  rw [siblingNodes_some cb sel hsel] at hsib
  rw [navigate_folder_some cb fwd sel hsel]
  unfold DirectoryComboBox.siblingNodesGo at hsib
  unfold DirectoryComboBox.navigate_folder_go
  by_cases hany : cb.roots.any (fun root => root.path == sel) = true
  · rw [if_pos hany] at hsib
    injection hsib with hL
    subst hL
    rw [if_pos hany]
  · rw [if_neg hany] at hsib
    rw [if_neg hany]
    cases hrps : rootsParentSearch cb.roots sel with
    | none => rw [hrps] at hsib; cases hsib
    | some pr =>
      cases pr with
      | mk q children =>
        rw [hrps] at hsib
        injection hsib with hL
        subst hL
        rfl

theorem navigate_folder_of_sib_none (cb : DirectoryComboBox) (fwd : Bool)
    (hsib : cb.siblingNodes = none) : cb.navigate_folder fwd = cb := by
  unfold DirectoryComboBox.siblingNodes at hsib
  unfold DirectoryComboBox.navigate_folder
  cases hsel : cb.selected_file with
  | none => rfl
  | some sel =>
    rw [hsel] at hsib
    have hsib2 : cb.siblingNodesGo sel = none := hsib
    show cb.navigate_folder_go fwd sel = cb
    unfold DirectoryComboBox.siblingNodesGo at hsib2
    unfold DirectoryComboBox.navigate_folder_go
    by_cases hany : cb.roots.any (fun root => root.path == sel) = true
    · rw [if_pos hany] at hsib2; cases hsib2
    · rw [if_neg hany] at hsib2
      rw [if_neg hany]
      cases hrps : rootsParentSearch cb.roots sel with
      | none => rfl
      | some pr =>
        cases pr with
        | mk q children => rw [hrps] at hsib2; cases hsib2

/-! Exact outcomes of one oriented navigation pass. -/

theorem filePaths_mem_node :
    ∀ (l : List DirectoryNode) (p : Path), p ∈ filePaths l → (.File p) ∈ l := by
  intro l
  induction l with
  | nil => intro p hp; simp [filePaths] at hp
  | cons c rest ih =>
    intro p hp
    cases c with
    | File fp =>
      simp only [filePaths, List.mem_cons] at hp
      rcases hp with hp | hp
      · subst hp; exact List.mem_cons_self _ _
      · exact List.mem_cons_of_mem _ (ih p hp)
    | Directory dp cs =>
      simp only [filePaths] at hp
      exact List.mem_cons_of_mem _ (ih p hp)

theorem node_filePaths_mem :
    ∀ (l : List DirectoryNode) (p : Path), (.File p) ∈ l → p ∈ filePaths l := by
  intro l
  induction l with
  | nil => intro p hp; cases hp
  | cons c rest ih =>
    intro p hp
    rcases List.mem_cons.mp hp with heq | hmem
    · subst heq
      simp [filePaths]
    · cases c with
      | File fp =>
        simp only [filePaths, List.mem_cons]
        exact Or.inr (ih p hmem)
      | Directory dp cs =>
        simp only [filePaths]
        exact ih p hmem

theorem any_path_true (l : List DirectoryNode) (p : Path) (h : (.File p) ∈ l) :
    l.any (fun root => root.path == p) = true := by
  rw [List.any_eq_true]
  exact ⟨.File p, h, by simp [DirectoryNode.path]⟩

theorem any_path_false (l : List DirectoryNode) (p : Path) (h : ∀ r ∈ l, r.path ≠ p) :
    l.any (fun root => root.path == p) = false := by
  rw [List.any_eq_false]
  intro r hr
  simpa using h r hr

theorem navigate_nodes_fwd (L : List DirectoryNode) (f : Option (Path → Bool))
    (sp : Option Path) (sel : Path) :
    navigate_nodes L true f sp (some sel) = navigateOriented L f sel sp (some sel) := by
  simp [navigate_nodes]

theorem navigate_nodes_bwd (L : List DirectoryNode) (f : Option (Path → Bool))
    (sp : Option Path) (sel : Path) :
    navigate_nodes L false f sp (some sel) = navigateOriented L.reverse f sel sp (some sel) := by
  simp [navigate_nodes]

/-- Phase-one success: a filter-accepted file other than the selection occurs
after the selection in the walked order, and the first such file is selected. -/
theorem navigateOriented_move (iter : List DirectoryNode) (f : Option (Path → Bool))
    (sel : Path) (sp sf : Option Path) (A B₂ : List Path) (b : Path)
    (hdec : filePaths iter = A ++ sel :: b :: B₂)
    (hA : sel ∉ A) (hb : b ≠ sel) (hp : passes f b = true) :
    navigateOriented iter f sel sp sf = (some b, some b) := by
  unfold navigateOriented
  rw [scanNodes_eq_scanPaths, hdec, scanPaths_skip f sel A _ hA]
  simp [scanPaths, hb, hp]

/-- Wrap-around outcome: when no accepted file other than the selection occurs
after it in the walked order, the selection was seen, so the wrap loop stops at
the first file of the walked order; it is selected exactly when it passes the
filter. -/
theorem navigateOriented_wrap (iter : List DirectoryNode) (f : Option (Path → Bool))
    (sel : Path) (sp sf : Option Path) (A B : List Path) (w : Path) (W2 : List Path)
    (hdec : filePaths iter = A ++ sel :: B)
    (hA : sel ∉ A) (hB : ∀ x ∈ B, x = sel ∨ passes f x = false)
    (hw : A ++ sel :: B = w :: W2) :
    navigateOriented iter f sel sp sf =
      if passes f w = true then (some w, some w) else (sp, sf) := by
  unfold navigateOriented
  rw [scanNodes_eq_scanPaths, hdec, scanPaths_skip f sel A _ hA]
  have hscan : scanPaths f sel false (sel :: B) = (none, true) := by
    simp [scanPaths, scanPaths_stall f sel B hB]
  rw [hscan]
  rw [wrapTarget_eq_wrapPaths, hdec, hw]
  by_cases hpw : passes f w = true
  · simp [wrapPaths, hpw]
  · simp [wrapPaths, hpw]

/-- When the selection does not occur among the walked files, nothing
happens. -/
theorem navigateOriented_noop (iter : List DirectoryNode) (f : Option (Path → Bool))
    (sel : Path) (sp sf : Option Path) (hnot : sel ∉ filePaths iter) :
    navigateOriented iter f sel sp sf = (sp, sf) := by
  unfold navigateOriented
  rw [scanNodes_eq_scanPaths, scanPaths_not_found f sel _ hnot]
  simp

/-- Splitting a duplicate-free list at a member. -/
theorem nodup_split (F A B : List Path) (s : Path) (hnd : F.Nodup)
    (hdec : F = A ++ s :: B) : s ∉ A ∧ s ∉ B ∧ A.Nodup ∧ B.Nodup := by
  subst hdec
  rcases List.nodup_append.mp hnd with ⟨hA, hsB, hdisj⟩
  have hsB' := List.nodup_cons.mp hsB
  refine ⟨fun hc => hdisj hc (List.mem_cons_self _ _), hsB'.1, hA, hsB'.2⟩

/-! Stability of the sibling-list dispatch when stepping between sibling
files. -/

theorem wfForest_parts (roots : List DirectoryNode) (h : wfForest roots = true) :
    wfNodes roots = true ∧ pairwiseIncomp (roots.map DirectoryNode.path) = true := by
  simpa [wfForest, Bool.and_eq_true] using h

/-- In a well-formed forest no root path equals the path of a file that is a
child of an inner directory: child paths strictly extend their parent's path,
while a root path comparable with the parent's path would contradict root
incomparability. -/
theorem child_file_not_root_path (roots : List DirectoryNode) (q : Path)
    (L : List DirectoryNode) (f : Path)
    (hwf : wfForest roots = true)
    (hP : (.Directory q L) ∈ preorderList roots)
    (hf : (.File f) ∈ L) :
    ∀ r ∈ roots, r.path ≠ f := by
  rcases wfForest_parts roots hwf with ⟨hwfN, hwfI⟩
  intro r hr hrf
  have hat := wfNodes_at roots hwfN q L hP
  have hqf : q <+: f ∧ q.length < f.length := by
    have := hat.1 (.File f) hf
    simpa [DirectoryNode.path] using this
  rcases preorder_decomp roots hwfN _ hP with ⟨c, hc, _, hcq, _⟩
  have hcq' : c.path <+: q := hcq
  have hcf : c.path <+: f := hcq'.trans hqf.1
  have hfmem : f ∈ roots.map DirectoryNode.path := List.mem_map.mpr ⟨r, hr, hrf⟩
  have hcmem : c.path ∈ roots.map DirectoryNode.path := List.mem_map.mpr ⟨c, hc, rfl⟩
  rcases pairwiseIncomp_elem _ hwfI c.path hcmem f hfmem with hic | hic
  · rw [incompPath_spec] at hic
    exact hic.1 hcf
  · rw [hic] at hcq'
    have hlen2 : f.length ≤ q.length := hcq'.length_le
    exact absurd (lt_of_lt_of_le hqf.2 hlen2) (lt_irrefl _)

/-- Stepping to another file of the same child list keeps the same parent:
`find_parent_directory` over the roots again returns exactly that parent
directory. -/
theorem fpd_of_child_file (roots : List DirectoryNode) (q : Path)
    (L : List DirectoryNode) (f : Path)
    (hwf : wfForest roots = true)
    (hnd : ((preorderList roots).map DirectoryNode.path).Nodup)
    (hP : (.Directory q L) ∈ preorderList roots)
    (hf : (.File f) ∈ L) :
    fpdList roots f = some (.Directory q L) := by
  rcases wfForest_parts roots hwf with ⟨hwfN, hwfI⟩
  have hat := wfNodes_at roots hwfN q L hP
  have hqf : q <+: f ∧ q.length < f.length := by
    have := hat.1 (.File f) hf
    simpa [DirectoryNode.path] using this
  have hspec := fpdList_spec roots f hwfN hwfI
  cases h : fpdList roots f with
  | none =>
    exact absurd hqf.1 (hspec.2 h (.Directory q L) hP rfl)
  | some d =>
    rcases hspec.1 d h with ⟨hdir, hmem, hdp, hmax⟩
    have h1 : q.length ≤ d.path.length := by
      have := hmax (.Directory q L) hP rfl hqf.1
      simpa [DirectoryNode.path] using this
    have h2 : d.path.length ≤ q.length := by
      by_contra hgt
      push_neg at hgt
      have hql : q <+: d.path := by
        rcases List.prefix_or_prefix_of_prefix hdp hqf.1 with hcomp | hcomp
        · exact absurd hcomp.length_le (not_le.mpr hgt)
        · exact hcomp
      have hchain := preorder_chain roots hwfN hwfI q L hP d hmem hql hgt
      rcases preorder_decomp L hat.2.2 d hchain with ⟨c, hcL, hdc, hcd, _⟩
      by_cases hcf : c = .File f
      · subst hcf
        rw [preorderList_cons_file, preorderList_nil] at hdc
        rcases List.mem_cons.mp hdc with hd' | hd'
        · subst hd'; cases hdir
        · cases hd'
      · have hcpf : c.path <+: f := hcd.trans hdp
        have hcm : c.path ∈ L.map DirectoryNode.path := List.mem_map.mpr ⟨c, hcL, rfl⟩
        have hfm : f ∈ L.map DirectoryNode.path :=
          List.mem_map.mpr ⟨.File f, hf, rfl⟩
        rcases pairwiseIncomp_elem _ hat.2.1 c.path hcm f hfm with hic | hic
        · rw [incompPath_spec] at hic
          exact hic.1 hcpf
        · have hceq : c = .File f := by
            refine node_inj roots hnd c ?_ (.File f) ?_ (by simpa [DirectoryNode.path] using hic)
            · exact preorder_sub roots q L hP c (mem_preorderList_of_mem L c hcL)
            · exact preorder_sub roots q L hP (.File f) (mem_preorderList_of_mem L _ hf)
          exact hcf hceq
    have hlen : d.path.length = q.length := le_antisymm h2 h1
    have hdq : d.path = q := by
      rcases List.prefix_or_prefix_of_prefix hdp hqf.1 with hcomp | hcomp
      · exact hcomp.eq_of_length hlen
      · exact (hcomp.eq_of_length hlen.symm).symm
    have hdeq : d = .Directory q L := by
      refine node_inj roots hnd d hmem (.Directory q L) hP ?_
      simpa [DirectoryNode.path] using hdq
    rw [hdeq]

theorem siblingNodesGo_cases (cb : DirectoryComboBox) (sel : Path) (L : List DirectoryNode)
    (h : cb.siblingNodesGo sel = some L) :
    (cb.roots.any (fun root => root.path == sel) = true ∧ L = cb.roots) ∨
    (cb.roots.any (fun root => root.path == sel) = false ∧
      ∃ q, fpdList cb.roots sel = some (.Directory q L)) := by
  unfold DirectoryComboBox.siblingNodesGo at h
  cases hany : cb.roots.any (fun root => root.path == sel) with
  | true =>
    rw [if_pos hany] at h
    injection h with hL
    exact Or.inl ⟨rfl, hL.symm⟩
  | false =>
    rw [if_neg (by simp [hany])] at h
    rw [rootsParentSearch_eq] at h
    cases hfpd : fpdList cb.roots sel with
    | none => rw [hfpd] at h; cases h
    | some d =>
      cases d with
      | File fp => rw [hfpd] at h; cases h
      | Directory q cs =>
        rw [hfpd] at h
        simp only [Option.some.injEq, Prod.mk.injEq] at h
        right
        refine ⟨rfl, q, ?_⟩
        rw [h]

theorem siblingNodesGo_files_in_forest (cb : DirectoryComboBox) (sel : Path)
    (L : List DirectoryNode) (h : cb.siblingNodesGo sel = some L) :
    ∀ p ∈ filePaths L, (.File p) ∈ preorderList cb.roots := by
  intro p hp
  have hFp : (.File p) ∈ L := filePaths_mem_node L p hp
  rcases siblingNodesGo_cases cb sel L h with ⟨_, hL⟩ | ⟨_, q, hfpd⟩
  · subst hL
    exact mem_preorderList_of_mem _ _ hFp
  · have hPmem := fpdList_mem cb.roots sel _ hfpd
    exact preorder_sub cb.roots q L hPmem _ (mem_preorderList_of_mem _ _ hFp)

/-- Stepping to another file of the same sibling list dispatches to the same
sibling list again. -/
theorem siblingNodes_step (cb : DirectoryComboBox) (sel b : Path)
    (L : List DirectoryNode)
    (hwf : wfForest cb.roots = true)
    (hnd : ((preorderList cb.roots).map DirectoryNode.path).Nodup)
    (hsel : cb.selected_file = some sel)
    (hsib : cb.siblingNodes = some L)
    (hb : b ∈ filePaths L) :
    cb.siblingNodesGo b = some L := by
  rw [siblingNodes_some cb sel hsel] at hsib
  have hFb : (.File b) ∈ L := filePaths_mem_node L b hb
  rcases siblingNodesGo_cases cb sel L hsib with ⟨_, hL⟩ | ⟨_, q, hfpd⟩
  · subst hL
    unfold DirectoryComboBox.siblingNodesGo
    rw [if_pos (any_path_true _ _ hFb)]
  · have hPmem := fpdList_mem cb.roots sel _ hfpd
    have hanyb : cb.roots.any (fun root => root.path == b) = false :=
      any_path_false _ _ (child_file_not_root_path cb.roots q L b hwf hPmem hFb)
    have hfpdb : fpdList cb.roots b = some (.Directory q L) :=
      fpd_of_child_file cb.roots q L b hwf hnd hPmem hFb
    unfold DirectoryComboBox.siblingNodesGo
    rw [if_neg (by simp [hanyb]), rootsParentSearch_eq, hfpdb]

/-- The sibling list of a duplicate-free well-formed forest has duplicate-free
file paths. -/
theorem siblingNodes_filePaths_nodup (cb : DirectoryComboBox) (sel : Path)
    (L : List DirectoryNode)
    (hwf : wfForest cb.roots = true)
    (hsib : cb.siblingNodesGo sel = some L) :
    (filePaths L).Nodup := by
  rcases wfForest_parts cb.roots hwf with ⟨hwfN, hwfI⟩
  rcases siblingNodesGo_cases cb sel L hsib with ⟨_, hL⟩ | ⟨_, q, hfpd⟩
  · subst hL
    exact (filePaths_sublist_paths cb.roots).nodup (pairwiseIncomp_nodup _ hwfI)
  · have hPmem := fpdList_mem cb.roots sel _ hfpd
    have hat := wfNodes_at cb.roots hwfN q L hPmem
    exact (filePaths_sublist_paths L).nodup (pairwiseIncomp_nodup _ hat.2.1)

/-! Concrete filesystems and widget states used by the closed statements
below. -/

/-- A filesystem with one directory `/` containing one regular file
`/a.txt`. -/
def fsC1 : FS where
  canon := fun p => if p = [] ∨ p = ["a.txt"] then some p else none
  isDir := fun p => decide (p = [])
  isFile := fun p => decide (p = ["a.txt"])
  createDirAllOk := fun p => decide (p = [])
  entries := fun p => if p = [] then [["a.txt"]] else []

theorem fsC1_real : fsC1.Real := by
  constructor
  · intro p h
    simp only [fsC1, decide_eq_true_eq] at h
    subst h
    rfl
  · intro p h
    simp only [fsC1, decide_eq_true_eq] at h
    rw [h.1] at h
    cases h.2

/-- A filesystem with a directory `/r` whose sole listed entry `/r/link` is a
symlink canonicalizing to the empty outside directory `/other`. -/
def fsC3 : FS where
  canon := fun p =>
    if p = ["r"] then some ["r"]
    else if p = ["r", "link"] then some ["other"]
    else if p = ["other"] then some ["other"]
    else none
  isDir := fun p => decide (p = ["r"] ∨ p = ["other"])
  isFile := fun _ => false
  createDirAllOk := fun p => decide (p = ["r"] ∨ p = ["other"])
  entries := fun p => if p = ["r"] then [["r", "link"]] else []

/-- A filesystem with a single regular file `/x` and nothing else. -/
def fsC8 : FS where
  canon := fun p => if p = ["x"] then some ["x"] else none
  isDir := fun _ => false
  isFile := fun p => decide (p = ["x"])
  createDirAllOk := fun _ => false
  entries := fun _ => []

/-!  The claims. -/

/-- C1.  The specification says a canonical path resolving to a regular file
yields `Some(File(path))`, and that a directory containing regular files
builds successfully.  The code calls `std::fs::create_dir_all` on the
canonicalized path before the `is_dir`/`is_file` tests; on an existing
regular file that call fails (see `FS.Real`), so `try_from_path` returns
`None` for every regular file — and, through the `?` inside the child loop,
for every directory with at least one regular-file entry.  This contradicts
the crate's own doc comment on `new_from_path` ("If `path` is a file, it will
be the only selectable value"), so the claim is right and the code is wrong:
a code bug, witnessed here by proving what the code actually does. -/
theorem C1_file_target_yields_none (fs : FS) (fuel : Nat) (p q : Path)
    (hreal : fs.Real) (hc : fs.canon p = some q) (hf : fs.isFile q = true) :
    tryFromPath fs fuel p = none := by
  cases fuel with
  | zero => simp [tryFromPath]
  | succ n =>
    have hcda := hreal.create_dir_all_fails_on_file q hf
    have hnd : fs.isDir q = false := by
      cases hd : fs.isDir q
      · rfl
      · exact absurd ⟨hf, hd⟩ (hreal.not_file_and_dir q)
    simp [tryFromPath, hc, hcda]

/-- C1, witness: on the concrete filesystem `fsC1`, the regular file
`/a.txt` canonicalizes to itself yet builds no node, and the directory `/`
containing it fails to build as well. -/
theorem C1_witness :
    fsC1.Real ∧ fsC1.canon ["a.txt"] = some ["a.txt"] ∧
      fsC1.isFile ["a.txt"] = true ∧
      tryFromPath fsC1 5 ["a.txt"] = none ∧
      tryFromPath fsC1 6 [] = none := by
  have h4 : tryFromPath fsC1 5 ["a.txt"] = none :=
    C1_file_target_yields_none fsC1 5 ["a.txt"] ["a.txt"] fsC1_real rfl rfl
  have h5 : tryFromPath fsC1 5 ["a.txt"] = none := h4
  refine ⟨fsC1_real, rfl, rfl, h4, ?_⟩
  simp [tryFromPath, buildChildren, fsC1, h5]

/-- C3.  The specification (and the comment in the source, lines 20-21) says
an entry whose canonicalized path escapes the parent's canonical path is
skipped, this being the sole symlink guard.  The code, however, tests the
*raw* entry path as reported by `read_dir` — which always starts with the
parent — and canonicalizes only inside the recursive call, so an escaping
symlink is not skipped: the node built for the symlink's target appears among
the children with a path outside the parent.  On `fsC3`, `/r` contains the
symlink `/r/link` to the outside directory `/other`, and the build keeps it. -/
theorem C3_escaping_symlink_kept :
    tryFromPath fsC3 3 ["r"] = some (.Directory ["r"] [.Directory ["other"] []]) ∧
      pathStartsWith ["other"] ["r"] = false := by
  constructor
  · simp [tryFromPath, buildChildren, fsC3, pathStartsWith, List.isPrefixOf]
  · rfl

/-- C7.  `set_selection(Some(p))` leaves the whole state unchanged when
canonicalization of `p` fails, and likewise when the widget is in files-only
mode and the canonical path is not an existing file. -/
theorem C7_set_selection_silent_reject (fs : FS) (cb : DirectoryComboBox) (p : Path) :
    (fs.canon p = none → cb.set_selection fs (some p) = cb) ∧
    (∀ q, fs.canon p = some q → cb.select_files_only = true → fs.isFile q = false →
      cb.set_selection fs (some p) = cb) := by
  constructor
  · intro h
    show cb.set_selection_some fs p = cb
    unfold DirectoryComboBox.set_selection_some
    rw [h]
  · intro q hq hmode hfile
    show cb.set_selection_some fs p = cb
    unfold DirectoryComboBox.set_selection_some
    rw [hq]
    show cb.set_selection_apply fs q = cb
    unfold DirectoryComboBox.set_selection_apply
    rw [if_pos hmode, if_neg (by simp [hfile])]

/-- C7, witness: on `fsC3` (no regular files), a request for the nonexistent
path `/nope` is ignored, and in files-only mode a request for the existing
directory `/other` is ignored as well. -/
theorem C7_witness :
    (fsC3.canon ["nope"] = none ∧
      DirectoryComboBox.set_selection
        { selected_path := some ["r"], selected_file := none, roots := [] }
        fsC3 (some ["nope"]) =
        { selected_path := some ["r"], selected_file := none, roots := [] }) ∧
    (fsC3.canon ["other"] = some ["other"] ∧
      DirectoryComboBox.set_selection
        { select_files_only := true } fsC3 (some ["other"]) =
        { select_files_only := true }) := by
  constructor
  · exact ⟨rfl, (C7_set_selection_silent_reject fsC3 _ ["nope"]).1 rfl⟩
  · exact ⟨rfl, (C7_set_selection_silent_reject fsC3 _ ["other"]).2 ["other"] rfl rfl rfl⟩

/-- C10.  When the currently selected file does not occur as a `File` entry of
the computed sibling list, both sibling-stepping operations leave the whole
state unchanged: the scan loop never sets `found_selected`, so neither the
move nor the wrap-around branch runs. -/
theorem C10_foreign_selection_noop (cb : DirectoryComboBox) (s : Path)
    (hsel : cb.selected_file = some s)
    (hout : ∀ L, cb.siblingNodes = some L → s ∉ filePaths L) :
    cb.select_next_file = cb ∧ cb.select_previous_file = cb := by
  have main : ∀ fwd : Bool, cb.navigate_folder fwd = cb := by
    intro fwd
    cases hsib : cb.siblingNodes with
    | none => exact navigate_folder_of_sib_none cb fwd hsib
    | some L =>
      have hno := hout L hsib
      have heq := navigate_folder_of_sib cb fwd s L hsel hsib
      rw [heq, hsel]
      cases fwd with
      | true =>
        rw [navigate_nodes_fwd, navigateOriented_noop L cb.filter s _ _ hno]
        rw [← hsel]
      | false =>
        rw [navigate_nodes_bwd, navigateOriented_noop L.reverse cb.filter s _ _
          (by rw [filePaths_reverse]; simpa using hno)]
        rw [← hsel]
  exact ⟨main true, main false⟩

/-- C10, witness: a file path force-selected from outside the tree (here
`/d/x` under the empty directory root `/d`) is left untouched by both
stepping operations. -/
theorem C10_witness :
    (DirectoryComboBox.select_next_file
        { selected_path := some ["d", "x"], selected_file := some ["d", "x"],
          roots := [.Directory ["d"] []] } =
      { selected_path := some ["d", "x"], selected_file := some ["d", "x"],
        roots := [.Directory ["d"] []] }) ∧
    (DirectoryComboBox.select_previous_file
        { selected_path := some ["d", "x"], selected_file := some ["d", "x"],
          roots := [.Directory ["d"] []] } =
      { selected_path := some ["d", "x"], selected_file := some ["d", "x"],
        roots := [.Directory ["d"] []] }) := by
  have h := C10_foreign_selection_noop
    { selected_path := some ["d", "x"], selected_file := some ["d", "x"],
      roots := [.Directory ["d"] []] } ["d", "x"] rfl ?_
  · exact h
  · intro L hL
    have : L = ([] : List DirectoryNode) := by
      simp [DirectoryComboBox.siblingNodes, DirectoryComboBox.siblingNodesGo,
        rootsParentSearch, DirectoryNode.find_parent_directory, findParentInChildren,
        DirectoryNode.path, pathStartsWith, List.isPrefixOf] at hL
      exact hL
    subst this
    simp [filePaths]

/-- C2, counterexample.  Sibling files `/a`, `/b`, `/c` with a filter
rejecting `/a` and `/c` selected: the specification says `select_next_file`
wraps to the first *eligible* file, `/b`.  The code's wrap loop returns at the
first `File` entry regardless: `/a` fails the filter, so nothing moves and the
selection stays `/c`. -/
theorem C2_counterexample :
    (DirectoryComboBox.select_next_file
        { selected_path := some ["c"], selected_file := some ["c"],
          roots := [.File ["a"], .File ["b"], .File ["c"]],
          filter := some (fun p => decide (p ≠ ["a"])) }).selected_file = some ["c"] ∧
    passes (some (fun p => decide (p ≠ (["a"] : Path)))) ["b"] = true ∧
    (["b"] : Path) ∈ filePaths [.File ["a"], .File ["b"], .File ["c"]] ∧
    (["b"] : Path) ≠ ["c"] ∧
    passes (some (fun p => decide (p ≠ (["a"] : Path)))) ["a"] = false := by
  refine ⟨?_, by decide, by decide, by decide, by decide⟩
  decide

/-- C2, amended.  With a selected file that occurs in the walked order of the
sibling list and no filter-accepted file other than it later in that order,
the wrap-around stops at the *first `File` entry of the walked order*: if that
file passes the filter both cursor fields move to it, and otherwise the state
is entirely unchanged — even when an eligible file exists later in the list.
In particular, when no eligible file exists at all the operation is a no-op,
as the specification says. -/
theorem C2_wrap_to_first_file (cb : DirectoryComboBox) (forward : Bool) (s w : Path)
    (L : List DirectoryNode) (A B W2 : List Path)
    (hsel : cb.selected_file = some s)
    (hsib : cb.siblingNodes = some L)
    (hdec : (if forward then filePaths L else (filePaths L).reverse) = A ++ s :: B)
    (hA : s ∉ A)
    (hB : ∀ x ∈ B, x = s ∨ passes cb.filter x = false)
    (hw : A ++ s :: B = w :: W2) :
    (passes cb.filter w = true →
      (cb.navigate_folder forward).selected_path = some w ∧
      (cb.navigate_folder forward).selected_file = some w) ∧
    (passes cb.filter w = false → cb.navigate_folder forward = cb) := by
  have heq := navigate_folder_of_sib cb forward s L hsel hsib
  have hnav : navigate_nodes L forward cb.filter cb.selected_path cb.selected_file =
      navigateOriented (if forward then L else L.reverse) cb.filter s
        cb.selected_path cb.selected_file := by
    rw [hsel]
    cases forward
    · rw [navigate_nodes_bwd]
      simp
    · rw [navigate_nodes_fwd]
      simp
  have hfp : filePaths (if forward then L else L.reverse) = A ++ s :: B := by
    cases forward
    · simpa [filePaths_reverse] using hdec
    · simpa using hdec
  have hwrap := navigateOriented_wrap (if forward then L else L.reverse) cb.filter s
    cb.selected_path cb.selected_file A B w W2 hfp hA hB hw
  constructor
  · intro hp
    rw [heq, hnav, hwrap, if_pos hp]
    exact ⟨rfl, rfl⟩
  · intro hp
    rw [heq, hnav, hwrap, if_neg (by simp [hp])]

/-- C2, witness: two files `/a`, `/b`, no filter, `/b` selected; the next-file
step wraps to `/a`, the first file of the walked order. -/
theorem C2_witness :
    (DirectoryComboBox.navigate_folder
        { selected_path := some ["b"], selected_file := some ["b"],
          roots := [.File ["a"], .File ["b"]] } true).selected_path = some ["a"] ∧
    (DirectoryComboBox.navigate_folder
        { selected_path := some ["b"], selected_file := some ["b"],
          roots := [.File ["a"], .File ["b"]] } true).selected_file = some ["a"] := by
  refine (C2_wrap_to_first_file _ true ["b"] ["a"]
    [.File ["a"], .File ["b"]] [["a"]] [] [["b"]] rfl ?_ ?_ ?_ ?_ ?_).1 rfl
  · rfl
  · decide
  · decide
  · intro x hx
    cases hx
  · rfl

/-- C5, counterexample.  The node below satisfies the data-model invariant of
the specification (every child path starts with its parent's path), yet
`find_parent_directory` does not return the deepest directory whose path
starts the query: the first child `/a` claims the query `/a/b/c` and is
returned, although the directory `/a/b/c` (path length 3, a strict descendant
in the tree) also has a path starting the query. -/
theorem C5_counterexample :
    (DirectoryNode.Directory []
        [.Directory ["a"] [],
         .Directory ["a", "b"] [.Directory ["a", "b", "c"] []]]).find_parent_directory
      ["a", "b", "c"] = some (.Directory ["a"] []) ∧
    (DirectoryNode.Directory ["a", "b", "c"] []) ∈
      preorderList [DirectoryNode.Directory []
        [.Directory ["a"] [],
         .Directory ["a", "b"] [.Directory ["a", "b", "c"] []]]] ∧
    (["a", "b", "c"] : Path) <+: ["a", "b", "c"] ∧
    (["a"] : Path).length < (["a", "b", "c"] : Path).length := by
  refine ⟨?_, ?_, by decide, by decide⟩
  · simp [DirectoryNode.find_parent_directory, findParentInChildren, pathStartsWith,
      List.isPrefixOf]
  · simp [preorderList]

/-- C5, amended.  On a `File` node the search always returns `None`; on a
*well-formed* tree (each child path strictly extends its parent's path and
sibling paths are pairwise prefix-incomparable — the shape of trees built from
a real directory hierarchy), a `some` answer is a directory of the tree whose
path starts `p` of maximal path length among all such directories, and a
`none` answer means no directory of the tree has a path starting `p`. -/
theorem C5_find_parent_directory_spec (n : DirectoryNode) (p : Path) :
    (∀ fp, n = .File fp → n.find_parent_directory p = none) ∧
    (wfNodes [n] = true →
      (∀ d, n.find_parent_directory p = some d →
        d.isDirNode = true ∧ d ∈ preorderList [n] ∧ d.path <+: p ∧
        ∀ x ∈ preorderList [n], x.isDirNode = true → x.path <+: p →
          x.path.length ≤ d.path.length) ∧
      (n.find_parent_directory p = none →
        ∀ x ∈ preorderList [n], x.isDirNode = true → ¬(x.path <+: p))) := by
  constructor
  · intro fp h
    subst h
    simp [DirectoryNode.find_parent_directory]
  · intro hwf
    have hinc : pairwiseIncomp ([n].map DirectoryNode.path) = true := by
      simp [pairwiseIncomp]
    have hspec := fpdList_spec [n] p hwf hinc
    rw [find_parent_directory_eq_fpdList]
    exact hspec

/-- C5, witness: on the well-formed tree `/r` with subdirectory `/r/s` and
file `/r/a`, the query `/r/s/x` returns the directory `/r/s`, which is in the
tree, starts the query, and is at least as deep as the root. -/
theorem C5_witness :
    wfNodes [DirectoryNode.Directory ["r"] [.Directory ["r", "s"] [], .File ["r", "a"]]] = true ∧
    (DirectoryNode.Directory ["r"]
        [.Directory ["r", "s"] [], .File ["r", "a"]]).find_parent_directory ["r", "s", "x"] =
      some (.Directory ["r", "s"] []) ∧
    (DirectoryNode.Directory ["r", "s"] ([] : List DirectoryNode)) ∈
      preorderList [DirectoryNode.Directory ["r"] [.Directory ["r", "s"] [], .File ["r", "a"]]] ∧
    (["r", "s"] : Path) <+: ["r", "s", "x"] ∧
    (DirectoryNode.Directory ["r"]
        [.Directory ["r", "s"] [], .File ["r", "a"]]).path.length ≤ (["r", "s"] : Path).length := by
  have hwf : wfNodes
      [DirectoryNode.Directory ["r"] [.Directory ["r", "s"] [], .File ["r", "a"]]] = true := by
    simp [wfNodes, pairwiseIncomp, incompPath, DirectoryNode.path, List.isPrefixOf]
  have hfpd : (DirectoryNode.Directory ["r"]
      [.Directory ["r", "s"] [], .File ["r", "a"]]).find_parent_directory ["r", "s", "x"] =
      some (.Directory ["r", "s"] []) := by
    simp [DirectoryNode.find_parent_directory, findParentInChildren, pathStartsWith,
      List.isPrefixOf]
  rcases ((C5_find_parent_directory_spec _ ["r", "s", "x"]).2 hwf).1 _ hfpd with
    ⟨hdir, hmem, hple, hmax⟩
  refine ⟨hwf, hfpd, hmem, hple, ?_⟩
  have := hmax (DirectoryNode.Directory ["r"] [.Directory ["r", "s"] [], .File ["r", "a"]])
    (by simp [preorderList]) rfl (by decide)
  simpa using this

/-- Exact characterization of `find_node_of_path` over a node list: it is the
first node of the depth-first, node-before-children enumeration whose own
path equals the query. -/
theorem fnpList_find :
    ∀ (l : List DirectoryNode) (q : Path),
      fnpList l q = (preorderList l).find? (fun m => m.path == q) := by
  intro l q
  induction l, q using fnpList.induct with
  | case1 q => simp [fnpList, preorderList_nil]
  | case2 rest q =>
    rw [preorderList_cons_file]
    rw [List.find?_cons_of_pos _ (by simp [DirectoryNode.path])]
    simp [fnpList]
  | case3 fp rest q hne ih =>
    rw [preorderList_cons_file, List.find?_cons_of_neg _ (by simp [DirectoryNode.path, hne])]
    simp only [fnpList]
    rw [if_neg hne]
    exact ih
  | case4 cs rest q =>
    rw [preorderList_cons_dir]
    rw [List.find?_cons_of_pos _ (by simp [DirectoryNode.path])]
    simp [fnpList]
  | case5 dp cs rest q hne found hfound ihc =>
    rw [preorderList_cons_dir, List.find?_cons_of_neg _ (by simp [DirectoryNode.path, hne]),
      List.find?_append]
    simp only [fnpList]
    rw [if_neg hne, hfound, ← ihc, hfound]
    rfl
  | case6 dp cs rest q hne hnone ihc ihr =>
    rw [preorderList_cons_dir, List.find?_cons_of_neg _ (by simp [DirectoryNode.path, hne]),
      List.find?_append]
    simp only [fnpList]
    rw [if_neg hne, hnone, ← ihc, hnone]
    simpa using ihr

/-- C6, counterexample.  Two roots with the same path `/a`: a `File` root and
a `Directory` root.  The `Directory` root is reachable from the roots
sequence, but `find_node_of_path` on its path returns the earlier `File`
node, which is not equal to it. -/
theorem C6_counterexample :
    findNodeInChildren [DirectoryNode.File ["a"], .Directory ["a"] []] ["a"] =
      some (.File ["a"]) ∧
    (DirectoryNode.Directory ["a"] ([] : List DirectoryNode)) ∈
      [DirectoryNode.File ["a"], .Directory ["a"] []] ∧
    some (DirectoryNode.File (["a"] : Path)) ≠
      some (DirectoryNode.Directory ["a"] ([] : List DirectoryNode)) := by
  refine ⟨?_, by simp, by simp⟩
  simp [findNodeInChildren, DirectoryNode.find_node_of_path]

/-- C6, amended.  Searching the roots in order (the `findNodeInChildren` loop
iterated over the roots is exactly that search) returns the first node of the
depth-first, root-order, node-before-children enumeration whose own path
equals the query; consequently, *when all node paths of the forest are
pairwise distinct*, the search at `n.path()` returns `n` itself for every
reachable node `n`. -/
theorem C6_find_node_of_path_spec (roots : List DirectoryNode) :
    (∀ q, findNodeInChildren roots q =
      (preorderList roots).find? (fun m => m.path == q)) ∧
    (((preorderList roots).map DirectoryNode.path).Nodup →
      ∀ n ∈ preorderList roots, findNodeInChildren roots (n.path) = some n) := by
  have hpart1 : ∀ q, findNodeInChildren roots q =
      (preorderList roots).find? (fun m => m.path == q) := by
    intro q
    rw [findNodeInChildren_eq_fnpList, fnpList_find]
  refine ⟨hpart1, ?_⟩
  intro hnd n hn
  rw [hpart1]
  have hex : ∃ x ∈ preorderList roots, (x.path == n.path) = true := ⟨n, hn, by simp⟩
  rcases Option.isSome_iff_exists.mp (List.find?_isSome.mpr hex) with ⟨m, hm⟩
  have hmem := List.mem_of_find?_eq_some hm
  have hpred : m.path = n.path := by simpa using List.find?_some hm
  rw [hm, node_inj roots hnd m hmem n hn hpred]

/-- C6, witness: on a forest with pairwise distinct paths, looking up the path
of the inner file `/b/c` returns that very node. -/
theorem C6_witness :
    findNodeInChildren [DirectoryNode.File ["a"], .Directory ["b"] [.File ["b", "c"]]]
      ["b", "c"] = some (.File ["b", "c"]) := by
  have h := (C6_find_node_of_path_spec
    [DirectoryNode.File ["a"], .Directory ["b"] [.File ["b", "c"]]]).2
    (by simp [preorderList, DirectoryNode.path])
    (.File ["b", "c"]) (by simp [preorderList])
  simpa [DirectoryNode.path] using h

/-! Engine-operation invariants. -/

theorem set_selection_apply_cases (cb : DirectoryComboBox) (fs : FS) (p : Path) :
    cb.set_selection_apply fs p = cb ∨
    (fs.isFile p = true ∧ cb.set_selection_apply fs p =
      { cb with selected_path := some p, selected_file := some p }) ∨
    cb.set_selection_apply fs p = { cb with selected_path := some p } := by
  unfold DirectoryComboBox.set_selection_apply
  by_cases hmode : cb.select_files_only = true
  · by_cases hfile : fs.isFile p = true
    · right; left
      rw [if_pos hmode, if_pos hfile]
      exact ⟨hfile, rfl⟩
    · left
      rw [if_pos hmode, if_neg hfile]
  · by_cases hfile : fs.isFile p = true
    · right; left
      rw [if_neg hmode, if_pos hfile]
      exact ⟨hfile, rfl⟩
    · by_cases hdir : fs.isDir p = true
      · right; right
        rw [if_neg hmode, if_neg hfile, if_pos hdir]
      · left
        rw [if_neg hmode, if_neg hfile, if_neg hdir]

/-- Every outcome of `set_selection`: unchanged, cleared, both cursor fields
set to a canonical existing file, or only `selected_path` set. -/
theorem set_selection_cases (cb : DirectoryComboBox) (fs : FS) (path : Option Path) :
    cb.set_selection fs path = cb ∨
    cb.set_selection fs path = { cb with selected_path := none, selected_file := none } ∨
    (∃ p, fs.isFile p = true ∧
      cb.set_selection fs path = { cb with selected_path := some p, selected_file := some p }) ∨
    (∃ p, cb.set_selection fs path = { cb with selected_path := some p }) := by
  cases path with
  | none => exact Or.inr (Or.inl rfl)
  | some p0 =>
    have hred : cb.set_selection fs (some p0) = cb.set_selection_some fs p0 := rfl
    rw [hred]
    unfold DirectoryComboBox.set_selection_some
    cases fs.canon p0 with
    | none => exact Or.inl rfl
    | some p =>
      rcases set_selection_apply_cases cb fs p with h | ⟨hf, h⟩ | h
      · exact Or.inl h
      · exact Or.inr (Or.inr (Or.inl ⟨p, hf, h⟩))
      · exact Or.inr (Or.inr (Or.inr ⟨p, h⟩))

theorem set_selection_fields (cb : DirectoryComboBox) (fs : FS) (path : Option Path) :
    (cb.set_selection fs path).roots = cb.roots ∧
    (cb.set_selection fs path).filter = cb.filter ∧
    (cb.set_selection fs path).select_files_only = cb.select_files_only := by
  rcases set_selection_cases cb fs path with h | h | ⟨p, _, h⟩ | ⟨p, h⟩ <;>
    rw [h] <;> exact ⟨rfl, rfl, rfl⟩

theorem siblingNodes_some_sel (cb : DirectoryComboBox) (L : List DirectoryNode)
    (hsib : cb.siblingNodes = some L) : ∃ sel, cb.selected_file = some sel := by
  unfold DirectoryComboBox.siblingNodes at hsib
  cases hsel : cb.selected_file with
  | none => rw [hsel] at hsib; cases hsib
  | some sel => exact ⟨sel, rfl⟩

/-- Every outcome of `navigate_folder`: unchanged, or both cursor fields set
to the path of a `File` node of the forest. -/
theorem navigate_folder_cases (cb : DirectoryComboBox) (fwd : Bool) :
    cb.navigate_folder fwd = cb ∨
    ∃ fp, (cb.navigate_folder fwd).selected_path = some fp ∧
      (cb.navigate_folder fwd).selected_file = some fp ∧
      (.File fp) ∈ preorderList cb.roots := by
  cases hsib : cb.siblingNodes with
  | none => exact Or.inl (navigate_folder_of_sib_none cb fwd hsib)
  | some L =>
    rcases siblingNodes_some_sel cb L hsib with ⟨sel, hsel⟩
    have heq := navigate_folder_of_sib cb fwd sel L hsel hsib
    rcases navigate_nodes_cases L fwd cb.filter cb.selected_path cb.selected_file with
      h | ⟨fp, h, hmem⟩
    · left
      rw [heq, h]
    · right
      refine ⟨fp, by rw [heq, h], by rw [heq, h], ?_⟩
      have hgo : cb.siblingNodesGo sel = some L := by
        rw [← siblingNodes_some cb sel hsel]
        exact hsib
      exact siblingNodesGo_files_in_forest cb sel L hgo fp hmem

/-- Invariant preservation along any sequence of engine operations. -/
theorem applyOps_inv (fs : FS) (P : DirectoryComboBox → Prop)
    (hset : ∀ cb path, P cb → P (cb.set_selection fs path))
    (hnav : ∀ cb fwd, P cb → P (cb.navigate_folder fwd)) :
    ∀ (ops : List NavOp) (cb : DirectoryComboBox), P cb → P (applyOps fs ops cb) := by
  intro ops
  induction ops with
  | nil => intro cb h; exact h
  | cons op rest ih =>
    intro cb h
    show applyOps fs rest (applyOp fs cb op) |> P
    refine ih _ ?_
    cases op with
    | set p => exact hset cb p h
    | next => exact hnav cb true h
    | prev => exact hnav cb false h

/-- C9.  Starting from a state with both cursor fields `None`, after any
sequence of engine operations a chosen file always comes with a raw cursor
path: whenever `selected()` is `Some`, `selected_path()` is `Some` too.
Every transition either clears both fields, sets both, sets only
`selected_path` to `Some`, or leaves the state unchanged. -/
theorem C9_selected_implies_selected_path (fs : FS) (roots : List DirectoryNode)
    (filter : Option (Path → Bool)) (fo : Bool) (ops : List NavOp) :
    ((applyOps fs ops
        { roots := roots, filter := filter, select_files_only := fo }).selected).isSome = true →
    ((applyOps fs ops
        { roots := roots, filter := filter, select_files_only := fo }).selected_path_acc).isSome
      = true := by
  have hmain := applyOps_inv fs
    (fun cb => cb.selected_file.isSome = true → cb.selected_path.isSome = true)
    ?_ ?_ ops { roots := roots, filter := filter, select_files_only := fo } (by simp)
  · exact hmain
  · intro cb path hP
    rcases set_selection_cases cb fs path with h | h | ⟨p, _, h⟩ | ⟨p, h⟩ <;> rw [h]
    · exact hP
    · simp
    · simp
    · intro hcb
      simp
  · intro cb fwd hP
    rcases navigate_folder_cases cb fwd with h | ⟨fp, h1, h2, _⟩
    · rw [h]; exact hP
    · intro _
      rw [h1]
      rfl

/-- C9, witness: selecting the existing file `/x` puts both cursor fields in
place. -/
theorem C9_witness :
    ((applyOps fsC8 [NavOp.set (some ["x"])]
        { roots := [DirectoryNode.File ["r", "a"]], filter := none,
          select_files_only := true }).selected).isSome = true ∧
    ((applyOps fsC8 [NavOp.set (some ["x"])]
        { roots := [DirectoryNode.File ["r", "a"]], filter := none,
          select_files_only := true }).selected_path_acc).isSome = true := by
  refine ⟨?_, C9_selected_implies_selected_path fsC8 _ none true _ ?_⟩ <;> decide

/-- C8, counterexample.  In files-only mode, `set_selection` checks only that
the canonical path is an existing file — membership under the roots is never
checked.  Selecting the outside file `/x` while the tree holds only
`/r/a` makes `selected_file` a path that neither occurs as a `File` node of
the tree nor lies under any root. -/
theorem C8_counterexample :
    (DirectoryComboBox.set_selection
        { roots := [DirectoryNode.File ["r", "a"]], select_files_only := true }
        fsC8 (some ["x"])).selected_file = some ["x"] ∧
    ((preorderList [DirectoryNode.File ["r", "a"]]).map DirectoryNode.path).contains
      (["x"] : Path) = false ∧
    ([DirectoryNode.File ["r", "a"]].all (fun r => !(pathStartsWith ["x"] r.path))) = true ∧
    ({ roots := [DirectoryNode.File ["r", "a"]], select_files_only := true } :
      DirectoryComboBox).select_files_only = true := by
  refine ⟨by decide, ?_, by decide, rfl⟩
  simp [preorderList_cons_file, preorderList_nil, DirectoryNode.path]

/-- C8, amended.  In files-only mode, after any sequence of engine operations
from a cleared cursor, `selected_file` is `None`, or a canonical path that the
filesystem reported as an existing regular file when `set_selection` accepted
it, or the path of a `File` node of the tree (reached by sibling stepping).
Membership under a root holds for the third source but is *not* guaranteed
for externally requested selections, which are never validated against the
tree. -/
theorem C8_selected_file_origin (fs : FS) (roots : List DirectoryNode)
    (filter : Option (Path → Bool)) (ops : List NavOp) (p : Path) :
    (applyOps fs ops
        { roots := roots, filter := filter, select_files_only := true }).selected_file
      = some p →
    fs.isFile p = true ∨ (.File p) ∈ preorderList roots := by
  have hmain := applyOps_inv fs
    (fun cb => cb.roots = roots ∧
      ∀ q, cb.selected_file = some q → fs.isFile q = true ∨ (.File q) ∈ preorderList roots)
    ?_ ?_ ops { roots := roots, filter := filter, select_files_only := true }
    ⟨rfl, by intro q hq; cases hq⟩
  · exact hmain.2 p
  · intro cb path hP
    refine ⟨(set_selection_fields cb fs path).1.trans hP.1, ?_⟩
    rcases set_selection_cases cb fs path with h | h | ⟨r, hr, h⟩ | ⟨r, h⟩ <;> rw [h]
    · exact hP.2
    · intro q hq; cases hq
    · intro q hq
      simp only at hq
      injection hq with hq
      subst hq
      exact Or.inl hr
    · exact hP.2
  · intro cb fwd hP
    refine ⟨(navigate_folder_fields cb fwd).1.trans hP.1, ?_⟩
    rcases navigate_folder_cases cb fwd with h | ⟨fp, _, h2, hmem⟩
    · rw [h]; exact hP.2
    · intro q hq
      rw [h2] at hq
      injection hq with hq
      subst hq
      right
      rw [← hP.1]
      exact hmem

/-- C8, witness: the outside selection of the counterexample is accounted for
by the first disjunct — the filesystem did report `/x` as a regular file. -/
theorem C8_witness :
    (applyOps fsC8 [NavOp.set (some ["x"])]
        { roots := [DirectoryNode.File ["r", "a"]], filter := none,
          select_files_only := true }).selected_file = some ["x"] ∧
    (fsC8.isFile ["x"] = true ∨
      (DirectoryNode.File (["x"] : Path)) ∈ preorderList [DirectoryNode.File ["r", "a"]]) := by
  exact ⟨by decide, C8_selected_file_origin fsC8 [DirectoryNode.File ["r", "a"]] none
    [NavOp.set (some ["x"])] ["x"] (by decide)⟩

/-- C4, counterexample.  Sibling files `/a`, `/b`, `/c`, a filter rejecting
`/a`, and `/c` selected.  Another eligible file (`/b`) exists in the sibling
list, yet next-then-previous does not restore `/c`: the next step's wrap stops
at the rejected `/a` and moves nothing, and the previous step then lands on
`/b`. -/
theorem C4_counterexample :
    (DirectoryComboBox.select_previous_file (DirectoryComboBox.select_next_file
        { selected_path := some ["c"], selected_file := some ["c"],
          roots := [.File ["a"], .File ["b"], .File ["c"]],
          filter := some (fun p => decide (p ≠ ["a"])) })).selected_file = some ["b"] ∧
    passes (some (fun p => decide (p ≠ (["a"] : Path)))) ["b"] = true ∧
    (["b"] : Path) ∈ filePaths [.File ["a"], .File ["b"], .File ["c"]] ∧
    (["b"] : Path) ≠ ["c"] := by
  exact ⟨by decide, by decide, by decide, by decide⟩

/-- C4, amended.  Over a well-formed forest with pairwise distinct node paths,
and a sibling list all of whose files pass the filter (in particular whenever
no filter is set): if the selected file occurs in the sibling list and another
file exists there, `select_next_file()` followed by `select_previous_file()`
restores the originally selected file; and when the selected file is the only
file of the sibling list, each operation individually keeps `selected_file`
unchanged (resetting `selected_path` to it).  With a filter that rejects some
sibling file the restoration can fail (see the counterexample), so the
all-eligible hypothesis is necessary. -/
theorem C4_next_previous_roundtrip (cb : DirectoryComboBox) (s : Path)
    (L : List DirectoryNode)
    (hwf : wfForest cb.roots = true)
    (hnd : ((preorderList cb.roots).map DirectoryNode.path).Nodup)
    (hsel : cb.selected_file = some s)
    (hsib : cb.siblingNodes = some L)
    (hmem : s ∈ filePaths L)
    (hpass : ∀ x ∈ filePaths L, passes cb.filter x = true) :
    ((∃ t ∈ filePaths L, t ≠ s) →
      ((cb.select_next_file).select_previous_file).selected_file = some s) ∧
    (filePaths L = [s] →
      (cb.select_next_file).selected_file = some s ∧
      (cb.select_previous_file).selected_file = some s) := by
  have hgo : cb.siblingNodesGo s = some L := by
    rw [← siblingNodes_some cb s hsel]
    exact hsib
  have hndF : (filePaths L).Nodup := siblingNodes_filePaths_nodup cb s L hwf hgo
  constructor
  · -- round trip in the presence of another file
    rintro ⟨t, htmem, htns⟩
    rcases List.append_of_mem hmem with ⟨A, B, hdec⟩
    rcases nodup_split (filePaths L) A B s hndF hdec with ⟨hsA, hsB, hAnd, hBnd⟩
    cases B with
    | cons b B₂ =>
      -- a further file exists after the selection: plain move, then move back
      have hbF : b ∈ filePaths L := by
        rw [hdec]; simp
      have hbs : b ≠ s := fun hc => hsB (by simp [hc])
      have hnav1 : navigate_nodes L true cb.filter cb.selected_path cb.selected_file =
          (some b, some b) := by
        rw [hsel, navigate_nodes_fwd]
        exact navigateOriented_move L cb.filter s cb.selected_path (some s) A B₂ b
          (by simpa using hdec) hsA hbs (hpass b hbF)
      have hstep1 : cb.select_next_file =
          { cb with selected_path := some b, selected_file := some b } := by
        show cb.navigate_folder true = _
        rw [navigate_folder_of_sib cb true s L hsel hsib, hnav1]
      have hsib1 : ({ cb with selected_path := some b, selected_file := some b }
          : DirectoryComboBox).siblingNodes = some L := by
        rw [siblingNodes_some _ b rfl]
        exact siblingNodes_step cb s b L hwf hnd hsel hsib hbF
      have hb2 : b ∉ B₂.reverse := by
        rcases List.nodup_cons.mp hBnd with ⟨hb2, _⟩
        simpa using hb2
      have hnav2 : navigate_nodes L false cb.filter (some b) (some b) = (some s, some s) := by
        rw [navigate_nodes_bwd]
        refine navigateOriented_move L.reverse cb.filter b (some b) (some b)
          B₂.reverse A.reverse s ?_ hb2 (fun hc => hbs hc.symm) (hpass s hmem)
        rw [filePaths_reverse, hdec]
        simp
      rw [hstep1]
      show (DirectoryComboBox.navigate_folder _ false).selected_file = some s
      rw [navigate_folder_of_sib _ false b L rfl hsib1]
      show (navigate_nodes L false cb.filter (some b) (some b)).2 = some s
      rw [hnav2]
    | nil =>
      -- the selection is the last file: wrap forward to the first file, then
      -- wrap backward from it to the last file, which is the selection
      have hA : A ≠ [] := by
        intro hc
        subst hc
        rw [hdec] at htmem
        simp at htmem
        exact htns htmem
      cases A with
      | nil => exact absurd rfl hA
      | cons a A₂ =>
        have haF : a ∈ filePaths L := by
          rw [hdec]; simp
        have has : a ≠ s := fun hc => hsA (by simp [hc])
        have hnav1 : navigate_nodes L true cb.filter cb.selected_path cb.selected_file =
            (some a, some a) := by
          rw [hsel, navigate_nodes_fwd]
          have hwrap := navigateOriented_wrap L cb.filter s cb.selected_path (some s)
            (a :: A₂) [] a (A₂ ++ [s]) (by simpa using hdec) hsA
            (by intro x hx; cases hx) (by simp)
          rw [hwrap, if_pos (hpass a haF)]
        have hstep1 : cb.select_next_file =
            { cb with selected_path := some a, selected_file := some a } := by
          show cb.navigate_folder true = _
          rw [navigate_folder_of_sib cb true s L hsel hsib, hnav1]
        have hsib1 : ({ cb with selected_path := some a, selected_file := some a }
            : DirectoryComboBox).siblingNodes = some L := by
          rw [siblingNodes_some _ a rfl]
          exact siblingNodes_step cb s a L hwf hnd hsel hsib haF
        have haA : a ∉ (s :: A₂.reverse) := by
          rcases List.nodup_cons.mp hAnd with ⟨ha2, _⟩
          simp only [List.mem_cons, List.mem_reverse]
          rintro (hc | hc)
          · exact has hc
          · exact ha2 hc
        have hnav2 : navigate_nodes L false cb.filter (some a) (some a) =
            (some s, some s) := by
          rw [navigate_nodes_bwd]
          have hwrap := navigateOriented_wrap L.reverse cb.filter a (some a) (some a)
            (s :: A₂.reverse) [] s (A₂.reverse ++ [a]) ?_ haA
            (by intro x hx; cases hx) (by simp)
          · rw [hwrap, if_pos (hpass s hmem)]
          · rw [filePaths_reverse, hdec]
            simp
        rw [hstep1]
        show (DirectoryComboBox.navigate_folder _ false).selected_file = some s
        rw [navigate_folder_of_sib _ false a L rfl hsib1]
        show (navigate_nodes L false cb.filter (some a) (some a)).2 = some s
        rw [hnav2]
  · -- a unique file: both operations keep the selected file
    intro huniq
    have hnavF : navigate_nodes L true cb.filter cb.selected_path cb.selected_file =
        (some s, some s) := by
      rw [hsel, navigate_nodes_fwd]
      have hwrap := navigateOriented_wrap L cb.filter s cb.selected_path (some s)
        [] [] s [] (by simpa using huniq) (by intro hc; cases hc)
        (by intro x hx; cases hx) (by simp)
      rw [hwrap, if_pos (hpass s hmem)]
    have hnavB : navigate_nodes L false cb.filter cb.selected_path cb.selected_file =
        (some s, some s) := by
      rw [hsel, navigate_nodes_bwd]
      have hwrap := navigateOriented_wrap L.reverse cb.filter s cb.selected_path (some s)
        [] [] s [] (by rw [filePaths_reverse, huniq]; rfl) (by intro hc; cases hc)
        (by intro x hx; cases hx) (by simp)
      rw [hwrap, if_pos (hpass s hmem)]
    constructor
    · show (cb.navigate_folder true).selected_file = some s
      rw [navigate_folder_of_sib cb true s L hsel hsib]
      show (navigate_nodes L true cb.filter cb.selected_path cb.selected_file).2 = some s
      rw [hnavF]
    · show (cb.navigate_folder false).selected_file = some s
      rw [navigate_folder_of_sib cb false s L hsel hsib]
      show (navigate_nodes L false cb.filter cb.selected_path cb.selected_file).2 = some s
      rw [hnavB]

/-- C4, witness: two unfiltered file roots with `/a` selected — stepping next
and then previous restores `/a`; and a single file root with `/f` selected —
each operation individually keeps `/f` selected. -/
theorem C4_witness :
    ((DirectoryComboBox.select_previous_file (DirectoryComboBox.select_next_file
        { selected_path := some ["a"], selected_file := some ["a"],
          roots := [.File ["a"], .File ["b"]] })).selected_file = some ["a"]) ∧
    ((DirectoryComboBox.select_next_file
        { selected_path := some ["f"], selected_file := some ["f"],
          roots := [.File ["f"]] }).selected_file = some ["f"]) ∧
    ((DirectoryComboBox.select_previous_file
        { selected_path := some ["f"], selected_file := some ["f"],
          roots := [.File ["f"]] }).selected_file = some ["f"]) := by
  refine ⟨?_, ?_, ?_⟩
  · exact (C4_next_previous_roundtrip
      { selected_path := some ["a"], selected_file := some ["a"],
        roots := [.File ["a"], .File ["b"]] } ["a"] [.File ["a"], .File ["b"]]
      (by simp [wfForest, wfNodes, pairwiseIncomp, incompPath, DirectoryNode.path,
        List.isPrefixOf])
      (by simp [preorderList, DirectoryNode.path])
      rfl rfl (by decide) (by intro x hx; rfl)).1 ⟨["b"], by decide, by decide⟩
  · exact ((C4_next_previous_roundtrip
      { selected_path := some ["f"], selected_file := some ["f"],
        roots := [.File ["f"]] } ["f"] [.File ["f"]]
      (by simp [wfForest, wfNodes, pairwiseIncomp, incompPath, DirectoryNode.path,
        List.isPrefixOf])
      (by simp [preorderList, DirectoryNode.path])
      rfl rfl (by decide) (by intro x hx; rfl)).2 (by decide)).1
  · exact ((C4_next_previous_roundtrip
      { selected_path := some ["f"], selected_file := some ["f"],
        roots := [.File ["f"]] } ["f"] [.File ["f"]]
      (by simp [wfForest, wfNodes, pairwiseIncomp, incompPath, DirectoryNode.path,
        List.isPrefixOf])
      (by simp [preorderList, DirectoryNode.path])
      rfl rfl (by decide) (by intro x hx; rfl)).2 (by decide)).2

end EguiDirCombo
